import Mathlib

/-!
Verification of the placement-geometry core of a block-puzzle game
(`board.rs`, together with the commit loop of `update` in `main.rs`):
shapes given by an 8×8 occupancy mask with a color tag, their bounding
boxes, 90°-rotations and rotational equivalence classes, textual pattern
parsing (`from_pattern`) and rendering (the `Display` implementation),
and the 20×20 board with its `superimpose` and commit operations.

Patterns are modelled as lists of characters.  The real-valued anchor
arithmetic of `superimpose` is modelled with exact rationals; the
`f32::round` of the source (round half away from zero) is modelled by
`roundAZ`.  Panics of `from_pattern` are modelled by `Option`.
-/

/-- The closed set of tile colors (`TileColor` in `board.rs`). -/
inductive TileColor where
  | Gray
  | Red
  | Green
  | Blue
  | Transparent
deriving DecidableEq, Repr

/-- The constant `TileColor::DEFAULT` (gray). -/
def TileColor.DEFAULT : TileColor := TileColor.Gray

/-- A shape: a color together with an 8×8 occupancy mask, indexed as
`fields[row][col]` like the Rust array `[[bool; 8]; 8]`. -/
structure Shape where
  color : TileColor
  fields : Fin 8 → Fin 8 → Bool

attribute [ext] Shape

/-- Shape equality is decidable by comparing the color and the 64 mask
cells. -/
instance : DecidableEq Shape := fun s t =>
  decidable_of_iff
    (s.color = t.color ∧
      ((List.finRange 8).all fun i => (List.finRange 8).all fun j =>
        s.fields i j == t.fields i j) = true)
    (by
      constructor
      · rintro ⟨hc, hf⟩
        simp only [List.all_eq_true, beq_iff_eq] at hf
        exact Shape.ext hc (funext fun i => funext fun j =>
          hf i (List.mem_finRange i) j (List.mem_finRange j))
      · rintro rfl
        simp)

/-- Mask access `fields[i][j]` with `Nat` indices (`false` out of range;
every use is proved to stay in range). -/
def Shape.cell (s : Shape) (i j : Nat) : Bool :=
  if h : i < 8 ∧ j < 8 then s.fields ⟨i, h.1⟩ ⟨j, h.2⟩ else false

/-- A left fold computing a running maximum of `g x` over the elements of
`l` that satisfy `p`, starting from `a`: the shape of the two folds inside
`Shape::bounds`. -/
def listMaxBy {α : Type} (p : α → Bool) (g : α → Nat) (l : List α) (a : Nat) : Nat :=
  l.foldl (fun m x => if p x then Nat.max m (g x) else m) a

/-- The inner fold `max_x_in_row` of `Shape::bounds`: one more than the
largest column index of an occupied cell of row `i` (`0` if the row is
empty). -/
def Shape.maxXInRow (s : Shape) (i : Fin 8) : Nat :=
  listMaxBy (fun j => s.fields i j) (fun j => j.val + 1) (List.finRange 8) 0

/-- `Shape::bounds`: the tight bounding box `(width, height)` of the mask,
`(0, 0)` for an empty mask. -/
def Shape.bounds (s : Shape) : Nat × Nat :=
  (List.finRange 8).foldl
    (fun acc i =>
      let mx := s.maxXInRow i
      (Nat.max acc.1 mx, if 0 < mx then Nat.max acc.2 (i.val + 1) else acc.2))
    (0, 0)

/-- `Shape::rotate_90`: within the bounding box `(w, h)`, the occupied cell
at row `i`, column `j` moves to row `j`, column `h - 1 - i` of a fresh
all-false mask; the color is carried over. -/
def Shape.rotate_90 (s : Shape) : Shape :=
  let wh := s.bounds
  { color := s.color
    fields := fun r c =>
      if r.val < wh.1 ∧ c.val < wh.2 then s.cell (wh.2 - 1 - c.val) r.val
      else false }

/-- `Shape::equivalents`: the base shape followed by its 90°, 180° and 270°
rotations, each appended only if not already contained in the accumulated
list. -/
def Shape.equivalents (s : Shape) : List Shape :=
  let shapes0 := [s]
  let rot90 := s.rotate_90
  let shapes1 := if rot90 ∈ shapes0 then shapes0 else shapes0 ++ [rot90]
  let rot180 := rot90.rotate_90
  let shapes2 := if rot180 ∈ shapes1 then shapes1 else shapes1 ++ [rot180]
  let rot270 := rot180.rotate_90
  if rot270 ∈ shapes2 then shapes2 else shapes2 ++ [rot270]

/-- Overwriting one cell of a mask. -/
def writeCell (f : Fin 8 → Fin 8 → Bool) (y x : Fin 8) (v : Bool) :
    Fin 8 → Fin 8 → Bool :=
  fun y' x' => if y' = y ∧ x' = x then v else f y' x'

/-- The character loop of `Shape::from_pattern`: `i` is the index within
the whole pattern of the first character of `l`; the loop fails (panics in
the source) on a cell position outside the 8×8 mask or on a character other
than `#` and `.`. -/
def fromPatternAux (w : Nat) : List Char → Nat → (Fin 8 → Fin 8 → Bool) →
    Option (Fin 8 → Fin 8 → Bool)
  | [], _, f => some f
  | c :: rest, i, f =>
    let x := i % w
    let y := i / w
    if hb : x < 8 ∧ y < 8 then
      if c = '#' then fromPatternAux w rest (i + 1) (writeCell f ⟨y, hb.2⟩ ⟨x, hb.1⟩ true)
      else if c = '.' then fromPatternAux w rest (i + 1) (writeCell f ⟨y, hb.2⟩ ⟨x, hb.1⟩ false)
      else none
    else none

/-- `Shape::from_pattern` (its panics modelled as `none`): checks the
pattern length against `w * h`, then scans the characters row-major. -/
def Shape.from_pattern (w h : Nat) (pat : List Char) : Option Shape :=
  if pat.length ≠ w * h then none
  else (fromPatternAux w pat 0 (fun _ _ => false)).map
    fun f => { color := TileColor.DEFAULT, fields := f }

/-- The `Display` implementation for `Shape`: the mask within its bounding
box, `#` for occupied and `.` for free cells, one line break after every
row except the last. -/
def Shape.display (s : Shape) : List Char :=
  let wh := s.bounds
  (List.range wh.2).flatMap fun i =>
    ((List.range wh.1).map fun j => if s.cell i j then '#' else '.') ++
      (if i < wh.2 - 1 then ['\n'] else [])

/-- The board: a 20×20 grid of optional colors, accessed as `grid y x`
(row-major like `self.0[y][x]`). -/
abbrev Board := Fin 20 → Fin 20 → Option TileColor

/-- Per-cell feasibility status (`SuperimpositionState`). -/
inductive SuperimpositionState where
  | Fits
  | Intersects
  | Blank
deriving DecidableEq, Repr

/-- The per-cell status grid of a superimposition result. -/
abbrev SupGrid := Fin 20 → Fin 20 → SuperimpositionState

/-- The result of `Board::superimpose`. -/
structure Superimposition where
  fields : SupGrid
  success : Bool

/-- `f32::round` on exact rationals: round half away from zero. -/
def roundAZ (q : ℚ) : ℤ := if 0 ≤ q then ⌊q + 1 / 2⌋ else ⌈q - 1 / 2⌉

/-- The offset from shape-local to board coordinates computed by
`Board::superimpose`: the cursor position in grid units (the translation
scaled by the board dimensions) minus the shape center. -/
def shapeOffset (s : Shape) (t : ℚ × ℚ) : ℚ × ℚ :=
  let wh := s.bounds
  ((20 : ℚ) * t.1 - (wh.1 : ℚ) * (1 / 2), (20 : ℚ) * t.2 - (wh.2 : ℚ) * (1 / 2))

/-- The rounded board column of shape column `x`. -/
def boardX (off : ℚ × ℚ) (x : Nat) : ℤ := roundAZ ((x : ℚ) + off.1)

/-- The rounded board row of shape row `y`. -/
def boardY (off : ℚ × ℚ) (y : Nat) : ℤ := roundAZ ((y : ℚ) + off.2)

/-- Overwriting one cell of a status grid. -/
def writeSup (g : SupGrid) (y x : Fin 20) (v : SuperimpositionState) : SupGrid :=
  fun y' x' => if y' = y ∧ x' = x then v else g y' x'

/-- The body of the scan in `Board::superimpose` for one mask cell `yx`:
skip unoccupied cells; an out-of-bounds target clears the success flag and
marks nothing; an occupied target is marked `Intersects` and clears the
success flag; a free target is marked `Fits`. -/
def supStep (b : Board) (s : Shape) (off : ℚ × ℚ) (acc : SupGrid × Bool)
    (yx : Fin 8 × Fin 8) : SupGrid × Bool :=
  if s.fields yx.1 yx.2 then
    let bx := boardX off yx.2.val
    let bY := boardY off yx.1.val
    if hb : 0 ≤ bx ∧ bx < 20 ∧ 0 ≤ bY ∧ bY < 20 then
      let xF : Fin 20 := ⟨bx.toNat, by omega⟩
      let yF : Fin 20 := ⟨bY.toNat, by omega⟩
      match b yF xF with
      | some _ => (writeSup acc.1 yF xF SuperimpositionState.Intersects, false)
      | none => (writeSup acc.1 yF xF SuperimpositionState.Fits, acc.2)
    else (acc.1, false)
  else acc

/-- The scan order of `Board::superimpose`: row-major over the 8×8 mask. -/
def cellList : List (Fin 8 × Fin 8) :=
  (List.finRange 8).flatMap fun y => (List.finRange 8).map fun x => (y, x)

/-- `Board::superimpose`: scan every mask cell, starting from an all-blank
status grid and a set success flag. -/
def Board.superimpose (b : Board) (s : Shape) (t : ℚ × ℚ) : Superimposition :=
  let off := shapeOffset s t
  let r := cellList.foldl (supStep b s off) (fun _ _ => SuperimpositionState.Blank, true)
  { fields := r.1, success := r.2 }

/-- The board-cell scan order of the commit loop in `update`. -/
def boardCellList : List (Fin 20 × Fin 20) :=
  (List.finRange 20).flatMap fun y => (List.finRange 20).map fun x => (y, x)

/-- The commit loop of `update` in `main.rs`: every board cell whose status
in the superimposition result is `Fits` is overwritten with `some c`. -/
def Board.commit (b : Board) (sup : Superimposition) (c : TileColor) : Board :=
  boardCellList.foldl
    (fun g yx =>
      if sup.fields yx.1 yx.2 = SuperimpositionState.Fits then
        fun y' x' => if y' = yx.1 ∧ x' = yx.2 then some c else g y' x'
      else g)
    b

/-- The entirely empty board. -/
def emptyBoard : Board := fun _ _ => none

/-- The 2×2 solid square, `from_pattern(2, 2, "####")`. -/
def square2 : Shape :=
  { color := TileColor.DEFAULT
    fields := fun i j => decide (i.val < 2) && decide (j.val < 2) }

/-- An L-tromino, `from_pattern(2, 2, "##.#")` (the `V` of the catalog). -/
def ltromino : Shape :=
  { color := TileColor.DEFAULT
    fields := fun i j =>
      decide (i.val = 0 ∧ j.val = 0) || decide (i.val = 0 ∧ j.val = 1) ||
        decide (i.val = 1 ∧ j.val = 1) }

/-- A single occupied cell at row 0, column 1, `from_pattern(2, 1, ".#")`:
its bounding box does not touch column 0. -/
def offCell : Shape :=
  { color := TileColor.DEFAULT, fields := fun i j => decide (i.val = 0 ∧ j.val = 1) }

/-- A single occupied cell at the origin, `from_pattern(1, 1, "#")`. -/
def dotShape : Shape :=
  { color := TileColor.DEFAULT, fields := fun i j => decide (i.val = 0 ∧ j.val = 0) }

/-- Whether mask cell `yx` of `s` is occupied and lands exactly on board
cell `p` (row `p.1`, column `p.2`) under the offset `off`. -/
def mapsTo (s : Shape) (off : ℚ × ℚ) (yx : Fin 8 × Fin 8) (p : Fin 20 × Fin 20) : Prop :=
  s.fields yx.1 yx.2 = true ∧
    boardY off yx.1.val = (p.1.val : ℤ) ∧ boardX off yx.2.val = (p.2.val : ℤ)

instance (s : Shape) (off : ℚ × ℚ) (yx : Fin 8 × Fin 8) (p : Fin 20 × Fin 20) :
    Decidable (mapsTo s off yx p) := by
  unfold mapsTo; infer_instance

/-- The status value written for a shape cell landing on board cell `p`:
`Intersects` on an occupied cell, `Fits` on a free one. -/
def boardVal (b : Board) (p : Fin 20 × Fin 20) : SuperimpositionState :=
  match b p.1 p.2 with
  | some _ => SuperimpositionState.Intersects
  | none => SuperimpositionState.Fits

/-- The board obtained from an empty board by committing the 2×2 solid
square superimposed at anchor `(0.1, 0.1)`. -/
def c8Board : Board :=
  Board.commit emptyBoard
    (Board.superimpose emptyBoard square2 (1 / 10, 1 / 10)) TileColor.Blue

/-- A sample superimposition result with a single `Fits` cell at the
origin. -/
def supExample : Superimposition :=
  { fields := fun y x =>
      if y.val = 0 ∧ x.val = 0 then SuperimpositionState.Fits
      else SuperimpositionState.Blank
    success := true }

/-- The rows of a row-major pattern joined by single line breaks: row `i`
is the `w` characters starting at position `i * w`, and every row except
the last is followed by one `'\n'`. -/
def rowsWithBreaks (w h : Nat) (pat : List Char) : List Char :=
  (List.range h).flatMap fun i =>
    ((pat.drop (i * w)).take w) ++ (if i < h - 1 then ['\n'] else [])

/-- The 90° rotation of `ltromino`. -/
def ltromino90 : Shape :=
  { color := TileColor.DEFAULT
    fields := fun i j =>
      decide ((i.val = 0 ∧ j.val = 1) ∨ (i.val = 1 ∧ j.val = 1) ∨
        (i.val = 1 ∧ j.val = 0)) }

/-- The 180° rotation of `ltromino`. -/
def ltromino180 : Shape :=
  { color := TileColor.DEFAULT
    fields := fun i j =>
      decide ((i.val = 0 ∧ j.val = 0) ∨ (i.val = 1 ∧ j.val = 0) ∨
        (i.val = 1 ∧ j.val = 1)) }

/-- The 270° rotation of `ltromino`. -/
def ltromino270 : Shape :=
  { color := TileColor.DEFAULT
    fields := fun i j =>
      decide ((i.val = 0 ∧ j.val = 0) ∨ (i.val = 0 ∧ j.val = 1) ∨
        (i.val = 1 ∧ j.val = 0)) }

/-- The 90° rotation of `offCell`: a single cell at row 1, column 0. -/
def offCellR1 : Shape :=
  { color := TileColor.DEFAULT, fields := fun i j => decide (i.val = 1 ∧ j.val = 0) }

/-- A board occupied exactly at row 1, column 1. -/
def oneCellBoard : Board :=
  fun y x => if y.val = 1 ∧ x.val = 1 then some TileColor.Red else none

/-! ### Properties of the maximum folds inside `Shape::bounds` -/

theorem listMaxBy_cons {α : Type} (p : α → Bool) (g : α → Nat) (x : α) (l : List α)
    (a : Nat) :
    listMaxBy p g (x :: l) a = listMaxBy p g l (if p x then Nat.max a (g x) else a) := rfl

theorem listMaxBy_le_iff {α : Type} (p : α → Bool) (g : α → Nat) (l : List α) :
    ∀ a k : Nat, (listMaxBy p g l a ≤ k ↔ a ≤ k ∧ ∀ x ∈ l, p x = true → g x ≤ k) := by
  induction l with
  | nil => intro a k; simp [listMaxBy]
  | cons hd tl ih =>
    intro a k
    rw [listMaxBy_cons, ih]
    by_cases hp : p hd = true
    · simp [hp, Nat.max_le]
      tauto
    · simp [hp, Nat.max_le]

theorem le_listMaxBy {α : Type} (p : α → Bool) (g : α → Nat) (l : List α) (a : Nat) :
    a ≤ listMaxBy p g l a :=
  ((listMaxBy_le_iff p g l a _).mp le_rfl).1

theorem listMaxBy_ge {α : Type} (p : α → Bool) (g : α → Nat) (l : List α) (a : Nat)
    (x : α) (hx : x ∈ l) (hp : p x = true) : g x ≤ listMaxBy p g l a :=
  ((listMaxBy_le_iff p g l a _).mp le_rfl).2 x hx hp

theorem listMaxBy_eq_or {α : Type} (p : α → Bool) (g : α → Nat) (l : List α) :
    ∀ a : Nat, listMaxBy p g l a = a ∨
      ∃ x ∈ l, p x = true ∧ listMaxBy p g l a = g x := by
  induction l with
  | nil => intro a; exact Or.inl rfl
  | cons hd tl ih =>
    intro a
    rw [listMaxBy_cons]
    by_cases hp : p hd = true
    · rw [if_pos hp]
      rcases ih (Nat.max a (g hd)) with h | ⟨x, hx, hpx, hval⟩
      · rcases Nat.le_total a (g hd) with hle | hle
        · exact Or.inr ⟨hd, List.mem_cons_self hd tl, hp,
            by rw [h]; exact Nat.max_eq_right hle⟩
        · exact Or.inl (by rw [h]; exact Nat.max_eq_left hle)
      · exact Or.inr ⟨x, List.mem_cons_of_mem hd hx, hpx, hval⟩
    · rw [if_neg hp]
      rcases ih a with h | ⟨x, hx, hpx, hval⟩
      · exact Or.inl h
      · exact Or.inr ⟨x, List.mem_cons_of_mem hd hx, hpx, hval⟩

/-! ### Characterization of `Shape::bounds` -/

theorem Shape.bounds_def (s : Shape) :
    s.bounds =
      (listMaxBy (fun _ => true) (fun i => s.maxXInRow i) (List.finRange 8) 0,
       listMaxBy (fun i => decide (0 < s.maxXInRow i)) (fun i => i.val + 1)
         (List.finRange 8) 0) := by
  have key : ∀ (l : List (Fin 8)) (acc : Nat × Nat),
      l.foldl (fun acc i => (Nat.max acc.1 (s.maxXInRow i),
        if 0 < s.maxXInRow i then Nat.max acc.2 (i.val + 1) else acc.2)) acc =
      (listMaxBy (fun _ => true) (fun i => s.maxXInRow i) l acc.1,
       listMaxBy (fun i => decide (0 < s.maxXInRow i)) (fun i => i.val + 1) l acc.2) := by
    intro l
    induction l with
    | nil => intro acc; rfl
    | cons hd tl ih =>
      intro acc
      rw [List.foldl_cons, ih, listMaxBy_cons, listMaxBy_cons]
      simp
  exact key (List.finRange 8) (0, 0)

theorem Shape.bounds_fst_eq (s : Shape) :
    s.bounds.1 = listMaxBy (fun _ => true) (fun i => s.maxXInRow i) (List.finRange 8) 0 := by
  rw [Shape.bounds_def]

theorem Shape.bounds_snd_eq (s : Shape) :
    s.bounds.2 = listMaxBy (fun i => decide (0 < s.maxXInRow i)) (fun i => i.val + 1)
      (List.finRange 8) 0 := by
  rw [Shape.bounds_def]

/-- Every occupied cell lies strictly inside the bounding box. -/
theorem Shape.cell_lt_bounds {s : Shape} {i j : Fin 8} (h : s.fields i j = true) :
    j.val < s.bounds.1 ∧ i.val < s.bounds.2 := by
  have hmx : j.val + 1 ≤ s.maxXInRow i := by
    rw [Shape.maxXInRow]
    exact listMaxBy_ge (fun j => s.fields i j) (fun j => j.val + 1) (List.finRange 8) 0 j
      (List.mem_finRange j) h
  have h1 : s.maxXInRow i ≤ s.bounds.1 := by
    rw [Shape.bounds_fst_eq]
    exact listMaxBy_ge (fun _ => true) (fun i => s.maxXInRow i) (List.finRange 8) 0 i
      (List.mem_finRange i) rfl
  have h2 : i.val + 1 ≤ s.bounds.2 := by
    rw [Shape.bounds_snd_eq]
    refine listMaxBy_ge (fun i => decide (0 < s.maxXInRow i)) (fun i => i.val + 1)
      (List.finRange 8) 0 i (List.mem_finRange i) ?_
    simp only [decide_eq_true_eq]
    omega
  omega

/-- The bounding-box width is at most any common strict bound on the
columns of occupied cells. -/
theorem Shape.bounds_fst_le (s : Shape) (W : Nat)
    (h : ∀ i j : Fin 8, s.fields i j = true → j.val < W) : s.bounds.1 ≤ W := by
  rw [Shape.bounds_fst_eq]
  refine (listMaxBy_le_iff _ _ _ _ _).mpr ⟨Nat.zero_le _, fun i _ _ => ?_⟩
  refine (listMaxBy_le_iff _ _ _ _ _).mpr ⟨Nat.zero_le _, fun j _ hj => ?_⟩
  have := h i j hj
  omega

/-- The bounding-box height is at most any common strict bound on the rows
of occupied cells. -/
theorem Shape.bounds_snd_le (s : Shape) (H : Nat)
    (h : ∀ i j : Fin 8, s.fields i j = true → i.val < H) : s.bounds.2 ≤ H := by
  rw [Shape.bounds_snd_eq]
  refine (listMaxBy_le_iff _ _ _ _ _).mpr ⟨Nat.zero_le _, fun i _ hp => ?_⟩
  have hmx : 0 < s.maxXInRow i := by simpa using hp
  obtain h0 | ⟨j, _, hpj, _⟩ :=
    listMaxBy_eq_or (fun j => s.fields i j) (fun j => j.val + 1) (List.finRange 8) 0
  · rw [Shape.maxXInRow] at hmx; omega
  · have := h i j hpj; omega

theorem Shape.bounds_le8 (s : Shape) : s.bounds.1 ≤ 8 ∧ s.bounds.2 ≤ 8 :=
  ⟨s.bounds_fst_le 8 fun _ j _ => j.isLt, s.bounds_snd_le 8 fun i _ _ => i.isLt⟩

/-- A nonzero bounding-box width is witnessed by an occupied cell in the
last column of the box. -/
theorem Shape.exists_col (s : Shape) (h : 0 < s.bounds.1) :
    ∃ i j : Fin 8, s.fields i j = true ∧ j.val + 1 = s.bounds.1 := by
  rw [Shape.bounds_fst_eq] at h ⊢
  obtain h0 | ⟨i, _, _, hval⟩ :=
    listMaxBy_eq_or (fun _ => true) (fun i => s.maxXInRow i) (List.finRange 8) 0
  · omega
  · rw [hval] at h ⊢
    rw [Shape.maxXInRow] at h ⊢
    obtain h0' | ⟨j, _, hpj, hval'⟩ :=
      listMaxBy_eq_or (fun j => s.fields i j) (fun j => j.val + 1) (List.finRange 8) 0
    · omega
    · exact ⟨i, j, hpj, by omega⟩

/-- A nonzero bounding-box height is witnessed by an occupied cell in the
last row of the box. -/
theorem Shape.exists_row (s : Shape) (h : 0 < s.bounds.2) :
    ∃ i j : Fin 8, s.fields i j = true ∧ i.val + 1 = s.bounds.2 := by
  rw [Shape.bounds_snd_eq] at h ⊢
  obtain h0 | ⟨i, _, hpi, hval⟩ :=
    listMaxBy_eq_or (fun i => decide (0 < s.maxXInRow i)) (fun i => i.val + 1)
      (List.finRange 8) 0
  · omega
  · have hmx : 0 < s.maxXInRow i := by simpa using hpi
    rw [Shape.maxXInRow] at hmx
    obtain h0' | ⟨j, _, hpj, _⟩ :=
      listMaxBy_eq_or (fun j => s.fields i j) (fun j => j.val + 1) (List.finRange 8) 0
    · omega
    · exact ⟨i, j, hpj, by omega⟩

/-! ### Nat-indexed cell access -/

theorem Shape.cell_eq_fields (s : Shape) (i j : Fin 8) :
    s.cell i.val j.val = s.fields i j := by
  simp [Shape.cell]

theorem Shape.cell_lt_bounds_nat {s : Shape} {i j : Nat} (h : s.cell i j = true) :
    j < s.bounds.1 ∧ i < s.bounds.2 := by
  rw [Shape.cell] at h
  split at h
  · exact Shape.cell_lt_bounds h
  · cases h

theorem Shape.bounds_fst_le_nat (s : Shape) (W : Nat)
    (h : ∀ i j : Nat, s.cell i j = true → j < W) : s.bounds.1 ≤ W :=
  s.bounds_fst_le W fun i j hf => h i.val j.val (by rw [Shape.cell_eq_fields]; exact hf)

theorem Shape.bounds_snd_le_nat (s : Shape) (H : Nat)
    (h : ∀ i j : Nat, s.cell i j = true → i < H) : s.bounds.2 ≤ H :=
  s.bounds_snd_le H fun i j hf => h i.val j.val (by rw [Shape.cell_eq_fields]; exact hf)

theorem Shape.exists_col_nat (s : Shape) (h : 0 < s.bounds.1) :
    ∃ i j : Nat, s.cell i j = true ∧ j + 1 = s.bounds.1 := by
  obtain ⟨i, j, hf, hj⟩ := s.exists_col h
  exact ⟨i.val, j.val, by rw [Shape.cell_eq_fields]; exact hf, hj⟩

theorem Shape.exists_row_nat (s : Shape) (h : 0 < s.bounds.2) :
    ∃ i j : Nat, s.cell i j = true ∧ i + 1 = s.bounds.2 := by
  obtain ⟨i, j, hf, hi⟩ := s.exists_row h
  exact ⟨i.val, j.val, by rw [Shape.cell_eq_fields]; exact hf, hi⟩

/-! ### Rotation -/

theorem Shape.rotate_fields (s : Shape) (r c : Fin 8) :
    s.rotate_90.fields r c =
      if r.val < s.bounds.1 ∧ c.val < s.bounds.2 then
        s.cell (s.bounds.2 - 1 - c.val) r.val
      else false := by
  rw [Shape.rotate_90]

theorem Shape.rotate_color (s : Shape) : s.rotate_90.color = s.color := by
  rw [Shape.rotate_90]

/-- Rotated cells, with `Nat` indices: cell `(r, c)` of the rotation is
cell `(h - 1 - c, r)` of the original inside the rotated box, `false`
outside it. -/
theorem Shape.cell_rot (s : Shape) (r c : Nat) :
    s.rotate_90.cell r c =
      if r < s.bounds.1 ∧ c < s.bounds.2 then s.cell (s.bounds.2 - 1 - c) r
      else false := by
  have hb8 := s.bounds_le8
  rw [Shape.cell]
  split
  · next hin =>
    rw [Shape.rotate_fields]
  · next hout =>
    rw [if_neg]
    intro ⟨h1, h2⟩
    exact hout ⟨by omega, by omega⟩

/-- Rotating a shape whose occupied cells touch both row 0 and column 0
swaps the bounding box and preserves that property. -/
theorem Shape.rotate_anchored (s : Shape)
    (h0 : ∃ j : Nat, s.cell 0 j = true) (hc : ∃ i : Nat, s.cell i 0 = true) :
    s.rotate_90.bounds = (s.bounds.2, s.bounds.1) ∧
      (∃ j : Nat, s.rotate_90.cell 0 j = true) ∧
      (∃ i : Nat, s.rotate_90.cell i 0 = true) := by
  obtain ⟨j0, hj0⟩ := h0
  obtain ⟨i0, hi0⟩ := hc
  have hb8 := s.bounds_le8
  have h1 := Shape.cell_lt_bounds_nat hj0
  have h2 := Shape.cell_lt_bounds_nat hi0
  set w := s.bounds.1 with hw
  set h := s.bounds.2 with hh
  have hub1 : s.rotate_90.bounds.1 ≤ h := by
    refine s.rotate_90.bounds_fst_le_nat h fun r c hcell => ?_
    rw [Shape.cell_rot] at hcell
    by_cases hg : r < w ∧ c < h
    · exact hg.2
    · rw [if_neg hg] at hcell; cases hcell
  have hub2 : s.rotate_90.bounds.2 ≤ w := by
    refine s.rotate_90.bounds_snd_le_nat w fun r c hcell => ?_
    rw [Shape.cell_rot] at hcell
    by_cases hg : r < w ∧ c < h
    · exact hg.1
    · rw [if_neg hg] at hcell; cases hcell
  have hcell1 : s.rotate_90.cell j0 (h - 1) = true := by
    rw [Shape.cell_rot, if_pos ⟨h1.1, by omega⟩]
    have e : h - 1 - (h - 1) = 0 := by omega
    rw [e]
    exact hj0
  obtain ⟨i1, j1, hcellc, hj1⟩ := s.exists_col_nat (by omega)
  have hi1h := Shape.cell_lt_bounds_nat hcellc
  have hcell2 : s.rotate_90.cell j1 (h - 1 - i1) = true := by
    rw [Shape.cell_rot, if_pos ⟨by omega, by omega⟩]
    have e : h - 1 - (h - 1 - i1) = i1 := by omega
    rw [e]
    exact hcellc
  have hlb1 : h ≤ s.rotate_90.bounds.1 := by
    have := Shape.cell_lt_bounds_nat hcell1
    omega
  have hlb2 : w ≤ s.rotate_90.bounds.2 := by
    have := Shape.cell_lt_bounds_nat hcell2
    omega
  refine ⟨?_, ?_, ?_⟩
  · have e1 : s.rotate_90.bounds.1 = h := by omega
    have e2 : s.rotate_90.bounds.2 = w := by omega
    rw [Prod.ext_iff]
    exact ⟨e1, e2⟩
  · refine ⟨h - 1 - i0, ?_⟩
    rw [Shape.cell_rot, if_pos ⟨by omega, by omega⟩]
    have e : h - 1 - (h - 1 - i0) = i0 := by omega
    rw [e]
    exact hi0
  · obtain ⟨i2, j2, hcellr, hi2⟩ := s.exists_row_nat (by omega)
    have hi2b := Shape.cell_lt_bounds_nat hcellr
    refine ⟨j2, ?_⟩
    rw [Shape.cell_rot, if_pos ⟨by omega, by omega⟩]
    have e : h - 1 - 0 = i2 := by omega
    rw [e]
    exact hcellr

/-- Rotating a shape with an empty mask returns the shape unchanged. -/
theorem Shape.rotate_of_empty (s : Shape) (hs : ∀ i j : Fin 8, s.fields i j = false) :
    s.rotate_90 = s := by
  have hb : s.bounds.1 ≤ 0 :=
    s.bounds_fst_le 0 fun i j hf => by rw [hs i j] at hf; cases hf
  refine Shape.ext (Shape.rotate_color s) ?_
  funext r c
  rw [Shape.rotate_fields, if_neg (by omega), hs r c]

/-- Four successive rotations restore any shape whose occupied cells touch
both row 0 and column 0. -/
theorem Shape.rotate_90_four_anchored (s : Shape)
    (h0 : ∃ j : Nat, s.cell 0 j = true) (hc : ∃ i : Nat, s.cell i 0 = true) :
    s.rotate_90.rotate_90.rotate_90.rotate_90 = s := by
  obtain ⟨ha1, hr1, hc1⟩ := s.rotate_anchored h0 hc
  obtain ⟨ha2, hr2, hc2⟩ := s.rotate_90.rotate_anchored hr1 hc1
  obtain ⟨ha3, _, _⟩ := s.rotate_90.rotate_90.rotate_anchored hr2 hc2
  have hb8 := s.bounds_le8
  set w := s.bounds.1 with hw
  set h := s.bounds.2 with hh
  simp only [ha1] at ha2
  simp only [ha2] at ha3
  have key : ∀ r c : Nat, s.rotate_90.rotate_90.rotate_90.rotate_90.cell r c = s.cell r c := by
    intro r c
    rw [Shape.cell_rot]
    simp only [ha3]
    by_cases hg : r < h ∧ c < w
    · rw [if_pos hg]
      rw [Shape.cell_rot]
      simp only [ha2]
      rw [if_pos ⟨by omega, hg.1⟩]
      rw [Shape.cell_rot]
      simp only [ha1]
      rw [if_pos ⟨by omega, by omega⟩]
      have e1 : w - 1 - (w - 1 - c) = c := by omega
      rw [e1]
      rw [Shape.cell_rot]
      rw [if_pos ⟨hg.2, by omega⟩]
      have e2 : h - 1 - (h - 1 - r) = r := by omega
      rw [e2]
    · rw [if_neg hg]
      rcases Bool.eq_false_or_eq_true (s.cell r c) with ht | hf
      · have := Shape.cell_lt_bounds_nat ht
        exact absurd ⟨this.2, this.1⟩ hg
      · exact hf.symm
  refine Shape.ext (by rw [Shape.rotate_color, Shape.rotate_color,
    Shape.rotate_color, Shape.rotate_color]) ?_
  funext r c
  have := key r.val c.val
  rwa [Shape.cell_eq_fields, Shape.cell_eq_fields] at this

/-! ### Claim C2: four rotations -/

/-- Claim C2 (counterexample): four successive rotations do not restore the
single-cell shape at row 0, column 1 — each rotation re-anchors the mask at
the origin, so the cell ends at row 0, column 0. -/
theorem rotate4_counterexample :
    offCell.rotate_90.rotate_90.rotate_90.rotate_90 ≠ offCell := by
  have e1 : offCell.rotate_90 = offCellR1 := by decide
  have e2 : offCellR1.rotate_90 = dotShape := by decide
  have e3 : dotShape.rotate_90 = dotShape := by decide
  rw [e1, e2, e3, e3]
  decide

/-- Claim C2 (amended): for every shape whose mask either is entirely empty
or has an occupied cell in row 0 and an occupied cell in column 0, applying
`rotate_90` four times in succession yields a shape whose mask equals the
original exactly, bit for bit (color included). -/
theorem rotate4_restores_anchored (s : Shape)
    (hs : (∀ i j : Fin 8, s.fields i j = false) ∨
      ((∃ j : Fin 8, s.fields 0 j = true) ∧ (∃ i : Fin 8, s.fields i 0 = true))) :
    s.rotate_90.rotate_90.rotate_90.rotate_90 = s := by
  rcases hs with he | ⟨⟨j0, hj0⟩, ⟨i0, hi0⟩⟩
  · have e := s.rotate_of_empty he
    rw [e, e, e, e]
  · exact s.rotate_90_four_anchored
      ⟨j0.val, (s.cell_eq_fields 0 j0).trans hj0⟩
      ⟨i0.val, (s.cell_eq_fields i0 0).trans hi0⟩

/-- Claim C2 (witness): the L-tromino touches row 0 and column 0, and four
rotations restore it. -/
theorem rotate4_witness :
    ((∃ j : Fin 8, ltromino.fields 0 j = true) ∧
      (∃ i : Fin 8, ltromino.fields i 0 = true)) ∧
      ltromino.rotate_90.rotate_90.rotate_90.rotate_90 = ltromino :=
  ⟨⟨⟨0, by decide⟩, ⟨0, by decide⟩⟩,
    rotate4_restores_anchored ltromino (Or.inr ⟨⟨0, by decide⟩, ⟨0, by decide⟩⟩)⟩

/-! ### Rounding -/

theorem roundAZ_intCast (z : ℤ) : roundAZ (z : ℚ) = z := by
  rw [roundAZ]
  split
  · rw [Int.floor_eq_iff]
    constructor <;> [skip; skip] <;> linarith
  · rw [Int.ceil_eq_iff]
    constructor <;> [skip; skip] <;> linarith

theorem roundAZ_mono {q r : ℚ} (h : q ≤ r) : roundAZ q ≤ roundAZ r := by
  rw [roundAZ, roundAZ]
  split <;> split
  · exact Int.floor_mono (by linarith)
  · next h1 h2 => exact absurd (le_trans h1 h) h2
  · next h1 h2 =>
    have ha : ⌈q - 1 / 2⌉ ≤ 0 := Int.ceil_le.mpr (by push_cast; linarith [not_le.mp h1])
    have hb : (0 : ℤ) ≤ ⌊r + 1 / 2⌋ := Int.le_floor.mpr (by push_cast; linarith)
    omega
  · exact Int.ceil_mono (by linarith)

theorem roundAZ_add_one_le (q : ℚ) : roundAZ q + 1 ≤ roundAZ (q + 1) := by
  rw [roundAZ, roundAZ]
  by_cases h0 : 0 ≤ q
  · rw [if_pos h0, if_pos (by linarith)]
    have e : q + 1 + 1 / 2 = q + 1 / 2 + 1 := by ring
    rw [e, Int.floor_add_one]
  · rw [if_neg h0]
    by_cases h1 : 0 ≤ q + 1
    · rw [if_pos h1]
      have hc : (⌈q - 1 / 2⌉ : ℚ) < q + 1 / 2 := by
        have := Int.ceil_lt_add_one (q - 1 / 2)
        linarith
      have hf : (q + 1 / 2 : ℚ) < ⌊q + 1 + 1 / 2⌋ := by
        have := Int.sub_one_lt_floor (q + 1 + 1 / 2)
        linarith
      have : (⌈q - 1 / 2⌉ : ℚ) < (⌊q + 1 + 1 / 2⌋ : ℚ) := lt_trans hc hf
      exact_mod_cast this
    · rw [if_neg h1]
      have e : q + 1 - 1 / 2 = q - 1 / 2 + 1 := by ring
      rw [e, Int.ceil_add_one]

theorem roundAZ_lt {q r : ℚ} (h : q + 1 ≤ r) : roundAZ q < roundAZ r := by
  have h1 := roundAZ_add_one_le q
  have h2 := roundAZ_mono h
  omega

/-- The rounded offset map is injective on integer (here `Nat`) shape
coordinates. -/
theorem boardX_injective (off : ℚ × ℚ) {x x' : Nat}
    (h : boardX off x = boardX off x') : x = x' := by
  rcases Nat.lt_trichotomy x x' with hlt | he | hgt
  · have hc : ((x : ℚ) + off.1) + 1 ≤ (x' : ℚ) + off.1 := by
      have : (x : ℚ) + 1 ≤ (x' : ℚ) := by exact_mod_cast hlt
      linarith
    have := roundAZ_lt hc
    rw [boardX, boardX] at h
    omega
  · exact he
  · have hc : ((x' : ℚ) + off.1) + 1 ≤ (x : ℚ) + off.1 := by
      have : (x' : ℚ) + 1 ≤ (x : ℚ) := by exact_mod_cast hgt
      linarith
    have := roundAZ_lt hc
    rw [boardX, boardX] at h
    omega

theorem boardY_injective (off : ℚ × ℚ) {y y' : Nat}
    (h : boardY off y = boardY off y') : y = y' := by
  rcases Nat.lt_trichotomy y y' with hlt | he | hgt
  · have hc : ((y : ℚ) + off.2) + 1 ≤ (y' : ℚ) + off.2 := by
      have : (y : ℚ) + 1 ≤ (y' : ℚ) := by exact_mod_cast hlt
      linarith
    have := roundAZ_lt hc
    rw [boardY, boardY] at h
    omega
  · exact he
  · have hc : ((y' : ℚ) + off.2) + 1 ≤ (y : ℚ) + off.2 := by
      have : (y' : ℚ) + 1 ≤ (y : ℚ) := by exact_mod_cast hgt
      linarith
    have := roundAZ_lt hc
    rw [boardY, boardY] at h
    omega

/-! ### Characterization of the superimposition scan -/

theorem mem_cellList (yx : Fin 8 × Fin 8) : yx ∈ cellList := by
  rcases yx with ⟨y, x⟩
  rw [cellList, List.mem_flatMap]
  exact ⟨y, List.mem_finRange y, List.mem_map.mpr ⟨x, List.mem_finRange x, rfl⟩⟩

theorem mem_boardCellList (p : Fin 20 × Fin 20) : p ∈ boardCellList := by
  rcases p with ⟨y, x⟩
  rw [boardCellList, List.mem_flatMap]
  exact ⟨y, List.mem_finRange y, List.mem_map.mpr ⟨x, List.mem_finRange x, rfl⟩⟩

theorem Board.superimpose_success_eq (b : Board) (s : Shape) (t : ℚ × ℚ) :
    (Board.superimpose b s t).success =
      (cellList.foldl (supStep b s (shapeOffset s t))
        (fun _ _ => SuperimpositionState.Blank, true)).2 := by
  rw [Board.superimpose]

theorem Board.superimpose_fields_eq (b : Board) (s : Shape) (t : ℚ × ℚ) :
    (Board.superimpose b s t).fields =
      (cellList.foldl (supStep b s (shapeOffset s t))
        (fun _ _ => SuperimpositionState.Blank, true)).1 := by
  rw [Board.superimpose]

/-- One scan step never marks a status cell for an unoccupied mask cell. -/
theorem supStep_not_field (b : Board) (s : Shape) (off : ℚ × ℚ)
    (acc : SupGrid × Bool) (yx : Fin 8 × Fin 8) (hf : ¬s.fields yx.1 yx.2 = true) :
    supStep b s off acc yx = acc := by
  simp only [supStep, if_neg hf]

/-- One scan step for an occupied mask cell whose target is out of bounds:
the status grid is untouched and the success flag is cleared. -/
theorem supStep_oob (b : Board) (s : Shape) (off : ℚ × ℚ)
    (acc : SupGrid × Bool) (yx : Fin 8 × Fin 8) (hf : s.fields yx.1 yx.2 = true)
    (hb : ¬(0 ≤ boardX off yx.2.val ∧ boardX off yx.2.val < 20 ∧
        0 ≤ boardY off yx.1.val ∧ boardY off yx.1.val < 20)) :
    supStep b s off acc yx = (acc.1, false) := by
  simp only [supStep, if_pos hf]
  rw [dif_neg hb]

/-- The success component of one scan step. -/
theorem supStep_snd_iff (b : Board) (s : Shape) (off : ℚ × ℚ)
    (acc : SupGrid × Bool) (yx : Fin 8 × Fin 8) :
    ((supStep b s off acc yx).2 = true ↔
      acc.2 = true ∧ (s.fields yx.1 yx.2 = true →
        ∃ p : Fin 20 × Fin 20, mapsTo s off yx p ∧ b p.1 p.2 = none)) := by
  by_cases hf : s.fields yx.1 yx.2 = true
  · by_cases hb : 0 ≤ boardX off yx.2.val ∧ boardX off yx.2.val < 20 ∧
        0 ≤ boardY off yx.1.val ∧ boardY off yx.1.val < 20
    · simp only [supStep, if_pos hf]
      rw [dif_pos hb]
      split
      · next c heq =>
        simp only [Bool.false_eq_true, false_iff]
        rintro ⟨-, hex⟩
        obtain ⟨p, ⟨-, hy, hx⟩, hnone⟩ := hex hf
        have hp1 : p.1 = (⟨(boardY off yx.1.val).toNat, by omega⟩ : Fin 20) := by
          apply Fin.ext
          simp only []
          omega
        have hp2 : p.2 = (⟨(boardX off yx.2.val).toNat, by omega⟩ : Fin 20) := by
          apply Fin.ext
          simp only []
          omega
        rw [hp1, hp2, heq] at hnone
        cases hnone
      · next heq =>
        simp only []
        constructor
        · intro h
          refine ⟨h, fun _ => ?_⟩
          refine ⟨(⟨(boardY off yx.1.val).toNat, by omega⟩,
            ⟨(boardX off yx.2.val).toNat, by omega⟩), ⟨hf, ?_, ?_⟩, heq⟩
          · simp only []
            omega
          · simp only []
            omega
        · exact fun h => h.1
    · rw [supStep_oob b s off acc yx hf hb]
      simp only [Bool.false_eq_true, false_iff]
      rintro ⟨-, hex⟩
      obtain ⟨p, ⟨-, hy, hx⟩, -⟩ := hex hf
      refine hb ⟨?_, ?_, ?_, ?_⟩
      · rw [hx]; omega
      · rw [hx]; exact_mod_cast p.2.isLt
      · rw [hy]; omega
      · rw [hy]; exact_mod_cast p.1.isLt
  · rw [supStep_not_field b s off acc yx hf]
    constructor
    · exact fun h => ⟨h, fun hff => absurd hff hf⟩
    · exact fun h => h.1

/-- The status-grid component of one scan step, read at board cell `p`. -/
theorem supStep_fst_apply (b : Board) (s : Shape) (off : ℚ × ℚ)
    (acc : SupGrid × Bool) (yx : Fin 8 × Fin 8) (p : Fin 20 × Fin 20) :
    (supStep b s off acc yx).1 p.1 p.2 =
      if mapsTo s off yx p then boardVal b p else acc.1 p.1 p.2 := by
  by_cases hf : s.fields yx.1 yx.2 = true
  · by_cases hb : 0 ≤ boardX off yx.2.val ∧ boardX off yx.2.val < 20 ∧
        0 ≤ boardY off yx.1.val ∧ boardY off yx.1.val < 20
    · simp only [supStep, if_pos hf]
      rw [dif_pos hb]
      by_cases hp : mapsTo s off yx p
      · obtain ⟨-, hy, hx⟩ := hp
        have hp1 : (⟨(boardY off yx.1.val).toNat, by omega⟩ : Fin 20) = p.1 := by
          apply Fin.ext
          simp only []
          omega
        have hp2 : (⟨(boardX off yx.2.val).toNat, by omega⟩ : Fin 20) = p.2 := by
          apply Fin.ext
          simp only []
          omega
        rw [if_pos ⟨hf, hy, hx⟩]
        split
        · next c heq =>
          rw [hp1, hp2] at heq ⊢
          simp [writeSup, boardVal, heq]
        · next heq =>
          rw [hp1, hp2] at heq ⊢
          simp [writeSup, boardVal, heq]
      · rw [if_neg hp]
        have hne : ¬(p.1 = (⟨(boardY off yx.1.val).toNat, by omega⟩ : Fin 20) ∧
            p.2 = (⟨(boardX off yx.2.val).toNat, by omega⟩ : Fin 20)) := by
          rintro ⟨h1, h2⟩
          refine hp ⟨hf, ?_, ?_⟩
          · rw [h1]
            simp only []
            omega
          · rw [h2]
            simp only []
            omega
        split
        · next c heq =>
          simp only [writeSup]
          rw [if_neg hne]
        · next heq =>
          simp only [writeSup]
          rw [if_neg hne]
    · rw [supStep_oob b s off acc yx hf hb]
      rw [if_neg]
      rintro ⟨-, hy, hx⟩
      refine hb ⟨?_, ?_, ?_, ?_⟩
      · rw [hx]; omega
      · rw [hx]; exact_mod_cast p.2.isLt
      · rw [hy]; omega
      · rw [hy]; exact_mod_cast p.1.isLt
  · rw [supStep_not_field b s off acc yx hf]
    rw [if_neg]
    rintro ⟨hff, -, -⟩
    exact hf hff

/-- The success flag after scanning a list of mask cells. -/
theorem supFold_snd_iff (b : Board) (s : Shape) (off : ℚ × ℚ) :
    ∀ (l : List (Fin 8 × Fin 8)) (acc : SupGrid × Bool),
      ((l.foldl (supStep b s off) acc).2 = true ↔
        acc.2 = true ∧ ∀ yx ∈ l, s.fields yx.1 yx.2 = true →
          ∃ p : Fin 20 × Fin 20, mapsTo s off yx p ∧ b p.1 p.2 = none) := by
  intro l
  induction l with
  | nil => intro acc; simp
  | cons hd tl ih =>
    intro acc
    rw [List.foldl_cons, ih, supStep_snd_iff]
    constructor
    · rintro ⟨⟨hacc, hhd⟩, htl⟩
      refine ⟨hacc, fun yx hm hf => ?_⟩
      rcases List.mem_cons.mp hm with rfl | hm'
      · exact hhd hf
      · exact htl yx hm' hf
    · rintro ⟨hacc, hall⟩
      exact ⟨⟨hacc, hall hd (List.mem_cons_self hd tl)⟩,
        fun yx hm hf => hall yx (List.mem_cons_of_mem hd hm) hf⟩

/-- The status grid after scanning a list of mask cells, read at board
cell `p`. -/
theorem supFold_fst_apply (b : Board) (s : Shape) (off : ℚ × ℚ) :
    ∀ (l : List (Fin 8 × Fin 8)) (acc : SupGrid × Bool) (p : Fin 20 × Fin 20),
      (l.foldl (supStep b s off) acc).1 p.1 p.2 =
        if ∃ yx ∈ l, mapsTo s off yx p then boardVal b p
        else acc.1 p.1 p.2 := by
  intro l
  induction l with
  | nil => intro acc p; simp
  | cons hd tl ih =>
    intro acc p
    rw [List.foldl_cons, ih, supStep_fst_apply]
    by_cases htl : ∃ yx ∈ tl, mapsTo s off yx p
    · obtain ⟨yx, hm, hmt⟩ := htl
      rw [if_pos ⟨yx, hm, hmt⟩, if_pos ⟨yx, List.mem_cons_of_mem hd hm, hmt⟩]
    · rw [if_neg htl]
      by_cases hhd : mapsTo s off hd p
      · rw [if_pos hhd, if_pos ⟨hd, List.mem_cons_self hd tl, hhd⟩]
      · rw [if_neg hhd, if_neg]
        rintro ⟨yx, hm, hmt⟩
        rcases List.mem_cons.mp hm with rfl | hm'
        · exact hhd hmt
        · exact htl ⟨yx, hm', hmt⟩

/-- The success flag of `Board::superimpose` is set exactly when every
occupied mask cell lands on an in-bounds, unoccupied board cell. -/
theorem Board.superimpose_success_iff (b : Board) (s : Shape) (t : ℚ × ℚ) :
    ((Board.superimpose b s t).success = true ↔
      ∀ yx : Fin 8 × Fin 8, s.fields yx.1 yx.2 = true →
        ∃ p : Fin 20 × Fin 20, mapsTo s (shapeOffset s t) yx p ∧
          b p.1 p.2 = none) := by
  rw [Board.superimpose_success_eq, supFold_snd_iff]
  constructor
  · exact fun h yx hf => h.2 yx (mem_cellList yx) hf
  · exact fun h => ⟨rfl, fun yx _ hf => h yx hf⟩

/-- The status grid of `Board::superimpose`, read at board cell `p`:
`Intersects` or `Fits` (by occupancy of `p`) when some occupied mask cell
lands on `p`, `Blank` otherwise. -/
theorem Board.superimpose_fields_apply (b : Board) (s : Shape) (t : ℚ × ℚ)
    (p : Fin 20 × Fin 20) :
    (Board.superimpose b s t).fields p.1 p.2 =
      if ∃ yx : Fin 8 × Fin 8, mapsTo s (shapeOffset s t) yx p
      then boardVal b p else SuperimpositionState.Blank := by
  rw [Board.superimpose_fields_eq, supFold_fst_apply]
  refine if_congr ?_ rfl rfl
  constructor
  · rintro ⟨yx, -, hmt⟩
    exact ⟨yx, hmt⟩
  · rintro ⟨yx, hmt⟩
    exact ⟨yx, mem_cellList yx, hmt⟩

/-! ### Claim C3: out-of-bounds shape cells -/

/-- Claim C3: an occupied shape cell whose rounded board coordinate falls
outside the board forces `success = false`, marks no status cell for that
shape cell, and the scan continues: every other occupied cell that lands on
the board still gets its status cell marked (never left `Blank`). -/
theorem superimpose_oob_cell (b : Board) (s : Shape) (t : ℚ × ℚ)
    (yx : Fin 8 × Fin 8) (hf : s.fields yx.1 yx.2 = true)
    (hoob : boardX (shapeOffset s t) yx.2.val < 0 ∨
      20 ≤ boardX (shapeOffset s t) yx.2.val ∨
      boardY (shapeOffset s t) yx.1.val < 0 ∨
      20 ≤ boardY (shapeOffset s t) yx.1.val) :
    (Board.superimpose b s t).success = false ∧
      (∀ acc : SupGrid × Bool, (supStep b s (shapeOffset s t) acc yx).1 = acc.1) ∧
      (∀ (yx' : Fin 8 × Fin 8) (p : Fin 20 × Fin 20),
        mapsTo s (shapeOffset s t) yx' p →
        (Board.superimpose b s t).fields p.1 p.2 ≠ SuperimpositionState.Blank) := by
  have hb : ¬(0 ≤ boardX (shapeOffset s t) yx.2.val ∧
      boardX (shapeOffset s t) yx.2.val < 20 ∧
      0 ≤ boardY (shapeOffset s t) yx.1.val ∧
      boardY (shapeOffset s t) yx.1.val < 20) := by
    rintro ⟨h1, h2, h3, h4⟩
    omega
  refine ⟨?_, ?_, ?_⟩
  · cases hsucc : (Board.superimpose b s t).success
    · rfl
    · exfalso
      obtain ⟨p, ⟨-, hy, hx⟩, -⟩ :=
        (Board.superimpose_success_iff b s t).mp hsucc yx hf
      have h1 := p.1.isLt
      have h2 := p.2.isLt
      refine hb ⟨?_, ?_, ?_, ?_⟩ <;> omega
  · intro acc
    rw [supStep_oob b s (shapeOffset s t) acc yx hf hb]
  · intro yx' p hmt
    rw [Board.superimpose_fields_apply, if_pos ⟨yx', hmt⟩]
    cases hcell : b p.1 p.2 <;> simp [boardVal, hcell]

theorem roundAZ_eq_of_cast {q : ℚ} {z : ℤ} (h : q = (z : ℚ)) : roundAZ q = z := by
  rw [h, roundAZ_intCast]

theorem roundAZ_add_half_eq (q : ℚ) (z : ℤ) (h : q = (z : ℚ) - 1 / 2)
    (h0 : 0 ≤ q) : roundAZ q = z := by
  rw [roundAZ, if_pos h0, show q + 1 / 2 = ((z : ℤ) : ℚ) by rw [h]; ring,
    Int.floor_intCast]

theorem roundAZ_sub_half_eq (q : ℚ) (z : ℤ) (h : q = (z : ℚ) - 1 / 2)
    (h0 : ¬0 ≤ q) : roundAZ q = z - 1 := by
  rw [roundAZ, if_neg h0, show q - 1 / 2 = ((z - 1 : ℤ) : ℚ) by push_cast [h]; ring,
    Int.ceil_intCast]

theorem dotShape_bounds : dotShape.bounds = (1, 1) := by decide

theorem dotShape_oob_offset : shapeOffset dotShape (-1, -1) = (-41 / 2, -41 / 2) := by
  rw [shapeOffset, dotShape_bounds]
  norm_num

theorem dotShape_oob_coord : boardX (shapeOffset dotShape (-1, -1)) 0 = -21 := by
  rw [boardX, dotShape_oob_offset]
  have h := roundAZ_sub_half_eq (((0 : Nat) : ℚ) + ((-41 : ℚ) / 2, (-41 : ℚ) / 2).1)
    (-20) (by norm_num) (by norm_num)
  rw [h]
  decide

/-- Claim C3 (witness): the single-cell shape anchored at `(-1, -1)` maps
its cell far off the board, and superimposition fails. -/
theorem superimpose_oob_cell_witness :
    dotShape.fields 0 0 = true ∧
      boardX (shapeOffset dotShape (-1, -1)) 0 < 0 ∧
      (Board.superimpose emptyBoard dotShape (-1, -1)).success = false :=
  ⟨by decide, by rw [dotShape_oob_coord]; decide,
    (superimpose_oob_cell emptyBoard dotShape (-1, -1) (0, 0) (by decide)
      (Or.inl (by
        show boardX (shapeOffset dotShape (-1, -1)) 0 < 0
        rw [dotShape_oob_coord]
        decide))).1⟩

/-! ### Claim C4: intersecting shape cells -/

/-- Claim C4: an occupied shape cell that lands in bounds on an occupied
board cell marks that cell `Intersects` and forces `success = false`, for
every board, shape and anchor. -/
theorem superimpose_intersects (b : Board) (s : Shape) (t : ℚ × ℚ)
    (yx : Fin 8 × Fin 8) (p : Fin 20 × Fin 20) (c : TileColor)
    (hf : s.fields yx.1 yx.2 = true)
    (hy : boardY (shapeOffset s t) yx.1.val = (p.1.val : ℤ))
    (hx : boardX (shapeOffset s t) yx.2.val = (p.2.val : ℤ))
    (hocc : b p.1 p.2 = some c) :
    (Board.superimpose b s t).fields p.1 p.2 = SuperimpositionState.Intersects ∧
      (Board.superimpose b s t).success = false := by
  constructor
  · rw [Board.superimpose_fields_apply, if_pos ⟨yx, hf, hy, hx⟩]
    simp [boardVal, hocc]
  · cases hsucc : (Board.superimpose b s t).success
    · rfl
    · exfalso
      obtain ⟨p', ⟨-, hy', hx'⟩, hnone⟩ :=
        (Board.superimpose_success_iff b s t).mp hsucc yx hf
      have hpp : p' = p := by
        rw [Prod.ext_iff]
        constructor <;> apply Fin.ext <;> omega
      rw [hpp, hocc] at hnone
      cases hnone

theorem dotShape_hit_offset : shapeOffset dotShape (3 / 40, 3 / 40) = (1, 1) := by
  rw [shapeOffset, dotShape_bounds]
  norm_num

theorem dotShape_hit_coordX : boardX (shapeOffset dotShape (3 / 40, 3 / 40)) 0 = 1 := by
  rw [boardX, dotShape_hit_offset]
  exact roundAZ_eq_of_cast (by norm_num)

theorem dotShape_hit_coordY : boardY (shapeOffset dotShape (3 / 40, 3 / 40)) 0 = 1 := by
  rw [boardY, dotShape_hit_offset]
  exact roundAZ_eq_of_cast (by norm_num)

/-- Claim C4 (witness): the single-cell shape anchored at `(0.075, 0.075)`
lands on the occupied board cell `(1, 1)`. -/
theorem superimpose_intersects_witness :
    dotShape.fields 0 0 = true ∧
      boardY (shapeOffset dotShape (3 / 40, 3 / 40)) 0 = 1 ∧
      boardX (shapeOffset dotShape (3 / 40, 3 / 40)) 0 = 1 ∧
      oneCellBoard 1 1 = some TileColor.Red ∧
      (Board.superimpose oneCellBoard dotShape (3 / 40, 3 / 40)).fields 1 1 =
        SuperimpositionState.Intersects ∧
      (Board.superimpose oneCellBoard dotShape (3 / 40, 3 / 40)).success = false := by
  have h := superimpose_intersects oneCellBoard dotShape (3 / 40, 3 / 40) (0, 0)
    (1, 1) TileColor.Red (by decide) dotShape_hit_coordY dotShape_hit_coordX
    (by decide)
  exact ⟨by decide, dotShape_hit_coordY, dotShape_hit_coordX, by decide, h.1, h.2⟩

/-! ### Claim C9: commit touches only `Fits` cells -/

theorem commitFold_apply (sup : Superimposition) (c : TileColor) :
    ∀ (l : List (Fin 20 × Fin 20)) (g : Board) (y x : Fin 20),
      (l.foldl (fun g yx =>
        if sup.fields yx.1 yx.2 = SuperimpositionState.Fits then
          (fun y' x' => if y' = yx.1 ∧ x' = yx.2 then some c else g y' x')
        else g) g) y x =
      if (y, x) ∈ l ∧ sup.fields y x = SuperimpositionState.Fits then some c
      else g y x := by
  intro l
  induction l with
  | nil => intro g y x; simp
  | cons hd tl ih =>
    rcases hd with ⟨a, d⟩
    intro g y x
    rw [List.foldl_cons, ih]
    by_cases hmem : (y, x) ∈ tl ∧ sup.fields y x = SuperimpositionState.Fits
    · rw [if_pos hmem, if_pos ⟨List.mem_cons_of_mem (a, d) hmem.1, hmem.2⟩]
    · rw [if_neg hmem]
      by_cases hfhd : sup.fields a d = SuperimpositionState.Fits
      · rw [if_pos hfhd]
        by_cases hyx : y = a ∧ x = d
        · rw [if_pos hyx, if_pos]
          refine ⟨?_, ?_⟩
          · rw [hyx.1, hyx.2]
            exact List.mem_cons_self (a, d) tl
          · rw [hyx.1, hyx.2]
            exact hfhd
        · rw [if_neg hyx, if_neg]
          rintro ⟨hm, hfits⟩
          rcases List.mem_cons.mp hm with he | hm'
          · exact hyx ⟨congrArg Prod.fst he, congrArg Prod.snd he⟩
          · exact hmem ⟨hm', hfits⟩
      · rw [if_neg hfhd, if_neg]
        rintro ⟨hm, hfits⟩
        rcases List.mem_cons.mp hm with he | hm'
        · refine hfhd ?_
          have h1 : y = a := congrArg Prod.fst he
          have h2 : x = d := congrArg Prod.snd he
          rw [← h1, ← h2]
          exact hfits
        · exact hmem ⟨hm', hfits⟩

/-- The commit loop written pointwise: a cell marked `Fits` becomes
`some c`, every other cell keeps its previous content. -/
theorem Board.commit_apply (b : Board) (sup : Superimposition) (c : TileColor)
    (y x : Fin 20) :
    Board.commit b sup c y x =
      if sup.fields y x = SuperimpositionState.Fits then some c else b y x := by
  rw [Board.commit, commitFold_apply]
  refine if_congr ?_ rfl rfl
  exact ⟨fun h => h.2, fun h => ⟨mem_boardCellList (y, x), h⟩⟩

/-- Claim C9: the commit operation sets every board cell marked `Fits` to
`some c` and leaves every cell marked `Intersects` or `Blank` unchanged. -/
theorem commit_fits_only (b : Board) (sup : Superimposition) (c : TileColor)
    (y x : Fin 20) :
    (sup.fields y x = SuperimpositionState.Fits →
      Board.commit b sup c y x = some c) ∧
    ((sup.fields y x = SuperimpositionState.Intersects ∨
      sup.fields y x = SuperimpositionState.Blank) →
      Board.commit b sup c y x = b y x) := by
  rw [Board.commit_apply b sup c y x]
  constructor
  · intro h
    rw [if_pos h]
  · intro h
    rw [if_neg]
    intro hfits
    rcases h with h | h <;> rw [h] at hfits <;> cases hfits

/-- Claim C9 (witness): committing a sample result writes the single `Fits`
cell and leaves a `Blank` cell untouched. -/
theorem commit_fits_only_witness :
    Board.commit emptyBoard supExample TileColor.Red 0 0 = some TileColor.Red ∧
      Board.commit emptyBoard supExample TileColor.Red 0 1 = none :=
  ⟨(commit_fits_only emptyBoard supExample TileColor.Red 0 0).1 (by decide),
    (commit_fits_only emptyBoard supExample TileColor.Red 0 1).2 (Or.inr (by decide))⟩

/-! ### Claim C10: successful superimpositions mark one cell per mask cell -/

/-- Claim C10: when `superimpose` succeeds, the number of board cells
marked `Fits` equals the number of occupied mask cells — the rounded
offset map sends distinct occupied cells to distinct board cells. -/
theorem superimpose_success_count (b : Board) (s : Shape) (t : ℚ × ℚ)
    (hs : (Board.superimpose b s t).success = true) :
    (Finset.univ.filter fun p : Fin 20 × Fin 20 =>
        (Board.superimpose b s t).fields p.1 p.2 = SuperimpositionState.Fits).card =
      (Finset.univ.filter fun yx : Fin 8 × Fin 8 =>
        s.fields yx.1 yx.2 = true).card := by
  have hgood := (Board.superimpose_success_iff b s t).mp hs
  symm
  refine Finset.card_bij
    (fun yx hyx => Classical.choose (hgood yx (by simpa using hyx))) ?_ ?_ ?_
  · intro yx hyx
    have hf : s.fields yx.1 yx.2 = true := by simpa using hyx
    show Classical.choose (hgood yx hf) ∈ _
    have hspec := Classical.choose_spec (hgood yx hf)
    simp only [Finset.mem_filter, Finset.mem_univ, true_and]
    rw [Board.superimpose_fields_apply, if_pos ⟨yx, hspec.1⟩]
    simp [boardVal, hspec.2]
  · intro yx1 hyx1 yx2 hyx2 heq
    have hf1 : s.fields yx1.1 yx1.2 = true := by simpa using hyx1
    have hf2 : s.fields yx2.1 yx2.2 = true := by simpa using hyx2
    have heq' : Classical.choose (hgood yx1 hf1) = Classical.choose (hgood yx2 hf2) :=
      heq
    have h1 := Classical.choose_spec (hgood yx1 hf1)
    have h2 := Classical.choose_spec (hgood yx2 hf2)
    obtain ⟨-, hy1, hx1⟩ := h1.1
    obtain ⟨-, hy2, hx2⟩ := h2.1
    rw [heq'] at hy1 hx1
    rw [Prod.ext_iff]
    constructor <;> apply Fin.ext
    · exact boardY_injective _ (hy1.trans hy2.symm)
    · exact boardX_injective _ (hx1.trans hx2.symm)
  · intro p hp
    simp only [Finset.mem_filter, Finset.mem_univ, true_and] at hp
    rw [Board.superimpose_fields_apply] at hp
    by_cases hex : ∃ yx : Fin 8 × Fin 8, mapsTo s (shapeOffset s t) yx p
    · obtain ⟨yx, hmt⟩ := hex
      have hf : s.fields yx.1 yx.2 = true := hmt.1
      refine ⟨yx, by simpa using hf, ?_⟩
      show Classical.choose (hgood yx hf) = p
      have hspec := Classical.choose_spec (hgood yx hf)
      obtain ⟨-, hy', hx'⟩ := hspec.1
      obtain ⟨-, hy, hx⟩ := hmt
      rw [Prod.ext_iff]
      constructor <;> apply Fin.ext <;> omega
    · rw [if_neg hex] at hp
      cases hp

theorem dotShape_center_offset :
    shapeOffset dotShape (1 / 2, 1 / 2) = (19 / 2, 19 / 2) := by
  rw [shapeOffset, dotShape_bounds]
  norm_num

theorem dotShape_center_success :
    (Board.superimpose emptyBoard dotShape (1 / 2, 1 / 2)).success = true := by
  rw [Board.superimpose_success_iff]
  intro yx hf
  have hyx : yx.1.val = 0 ∧ yx.2.val = 0 := by
    simpa [dotShape] using hf
  refine ⟨(⟨10, by omega⟩, ⟨10, by omega⟩), ⟨hf, ?_, ?_⟩, rfl⟩
  · rw [boardY, dotShape_center_offset, hyx.1]
    exact roundAZ_add_half_eq _ 10 (by norm_num) (by norm_num)
  · rw [boardX, dotShape_center_offset, hyx.2]
    exact roundAZ_add_half_eq _ 10 (by norm_num) (by norm_num)

/-- Claim C10 (witness): on an empty board the single-cell shape at anchor
`(0.5, 0.5)` succeeds, so exactly one cell is marked `Fits`. -/
theorem superimpose_success_count_witness :
    (Board.superimpose emptyBoard dotShape (1 / 2, 1 / 2)).success = true ∧
      (Finset.univ.filter fun p : Fin 20 × Fin 20 =>
        (Board.superimpose emptyBoard dotShape (1 / 2, 1 / 2)).fields p.1 p.2 =
          SuperimpositionState.Fits).card =
      (Finset.univ.filter fun yx : Fin 8 × Fin 8 =>
        dotShape.fields yx.1 yx.2 = true).card :=
  ⟨dotShape_center_success,
    superimpose_success_count emptyBoard dotShape (1 / 2, 1 / 2)
      dotShape_center_success⟩

/-! ### Claim C7: 2×2 square at the board center -/

theorem boardX_of_int_offset (off : ℚ × ℚ) (z : ℤ) (x : Nat) (h : off.1 = (z : ℚ)) :
    boardX off x = x + z := by
  rw [boardX, h]
  exact roundAZ_eq_of_cast (by push_cast; ring)

theorem boardY_of_int_offset (off : ℚ × ℚ) (z : ℤ) (y : Nat) (h : off.2 = (z : ℚ)) :
    boardY off y = y + z := by
  rw [boardY, h]
  exact roundAZ_eq_of_cast (by push_cast; ring)

theorem square2_bounds : square2.bounds = (2, 2) := by decide

theorem square2_center_offset : shapeOffset square2 (1 / 2, 1 / 2) = (9, 9) := by
  rw [shapeOffset, square2_bounds]
  norm_num

theorem square2_center_maps (y x : Fin 20) :
    ((∃ yx : Fin 8 × Fin 8,
        mapsTo square2 (shapeOffset square2 (1 / 2, 1 / 2)) yx (y, x)) ↔
      (y.val = 9 ∨ y.val = 10) ∧ (x.val = 9 ∨ x.val = 10)) := by
  constructor
  · rintro ⟨⟨cy, cx⟩, hf, hy, hx⟩
    have hb : cy.val < 2 ∧ cx.val < 2 := by simpa [square2] using hf
    rw [boardY_of_int_offset _ 9 _ (by rw [square2_center_offset]; norm_num)] at hy
    rw [boardX_of_int_offset _ 9 _ (by rw [square2_center_offset]; norm_num)] at hx
    have hy2 : (cy.val : ℤ) + 9 = (y.val : ℤ) := hy
    have hx2 : (cx.val : ℤ) + 9 = (x.val : ℤ) := hx
    constructor <;> omega
  · rintro ⟨hy, hx⟩
    refine ⟨(⟨y.val - 9, by omega⟩, ⟨x.val - 9, by omega⟩), ?_, ?_, ?_⟩
    · show (decide (y.val - 9 < 2) && decide (x.val - 9 < 2)) = true
      simp only [Bool.and_eq_true, decide_eq_true_eq]
      constructor <;> omega
    · rw [boardY_of_int_offset _ 9 _ (by rw [square2_center_offset]; norm_num)]
      show ((y.val - 9 : ℕ) : ℤ) + 9 = ((y.val : ℕ) : ℤ)
      omega
    · rw [boardX_of_int_offset _ 9 _ (by rw [square2_center_offset]; norm_num)]
      show ((x.val - 9 : ℕ) : ℤ) + 9 = ((x.val : ℕ) : ℤ)
      omega

theorem square2_center_grid (y x : Fin 20) :
    (Board.superimpose emptyBoard square2 (1 / 2, 1 / 2)).fields y x =
      if (y.val = 9 ∨ y.val = 10) ∧ (x.val = 9 ∨ x.val = 10)
      then SuperimpositionState.Fits else SuperimpositionState.Blank := by
  rw [show (Board.superimpose emptyBoard square2 (1 / 2, 1 / 2)).fields y x =
      if ∃ yx : Fin 8 × Fin 8,
        mapsTo square2 (shapeOffset square2 (1 / 2, 1 / 2)) yx (y, x)
      then boardVal emptyBoard (y, x) else SuperimpositionState.Blank from
    Board.superimpose_fields_apply emptyBoard square2 (1 / 2, 1 / 2) (y, x)]
  rw [if_congr (square2_center_maps y x) rfl rfl]
  by_cases hc : (y.val = 9 ∨ y.val = 10) ∧ (x.val = 9 ∨ x.val = 10)
  · rw [if_pos hc, if_pos hc]
    rfl
  · rw [if_neg hc, if_neg hc]

theorem square2_center_success :
    (Board.superimpose emptyBoard square2 (1 / 2, 1 / 2)).success = true := by
  rw [Board.superimpose_success_iff]
  rintro ⟨cy, cx⟩ hf
  have hb : cy.val < 2 ∧ cx.val < 2 := by simpa [square2] using hf
  refine ⟨(⟨cy.val + 9, by omega⟩, ⟨cx.val + 9, by omega⟩), ⟨hf, ?_, ?_⟩, rfl⟩
  · rw [boardY_of_int_offset _ 9 _ (by rw [square2_center_offset]; norm_num)]
    show ((cy.val : ℕ) : ℤ) + 9 = ((cy.val + 9 : ℕ) : ℤ)
    omega
  · rw [boardX_of_int_offset _ 9 _ (by rw [square2_center_offset]; norm_num)]
    show ((cx.val : ℕ) : ℤ) + 9 = ((cx.val + 9 : ℕ) : ℤ)
    omega

/-- Claim C7: on an empty 20×20 board, the 2×2 solid square at anchor
`(0.5, 0.5)` superimposes with `success = true`; exactly the four cells
`(9..10, 9..10)` at the board center are marked `Fits` and every other
cell is `Blank`, so exactly 4 cells are marked `Fits`. -/
theorem superimpose_center_example :
    (Board.superimpose emptyBoard square2 (1 / 2, 1 / 2)).success = true ∧
      (∀ y x : Fin 20,
        (Board.superimpose emptyBoard square2 (1 / 2, 1 / 2)).fields y x =
          if (y.val = 9 ∨ y.val = 10) ∧ (x.val = 9 ∨ x.val = 10)
          then SuperimpositionState.Fits else SuperimpositionState.Blank) ∧
      (Finset.univ.filter fun p : Fin 20 × Fin 20 =>
        (Board.superimpose emptyBoard square2 (1 / 2, 1 / 2)).fields p.1 p.2 =
          SuperimpositionState.Fits).card = 4 := by
  refine ⟨square2_center_success, square2_center_grid, ?_⟩
  have hfe : (Finset.univ.filter fun p : Fin 20 × Fin 20 =>
      (Board.superimpose emptyBoard square2 (1 / 2, 1 / 2)).fields p.1 p.2 =
        SuperimpositionState.Fits) =
      (Finset.univ.filter fun p : Fin 20 × Fin 20 =>
        (p.1.val = 9 ∨ p.1.val = 10) ∧ (p.2.val = 9 ∨ p.2.val = 10)) := by
    refine Finset.filter_congr fun p _ => ?_
    rw [square2_center_grid p.1 p.2]
    by_cases hc : (p.1.val = 9 ∨ p.1.val = 10) ∧ (p.2.val = 9 ∨ p.2.val = 10)
    · rw [if_pos hc]
      simp [hc]
    · rw [if_neg hc]
      simp [hc]
  rw [hfe]
  decide

/-! ### Claim C8: commit, then superimpose again at the same anchor -/

theorem square2_commit_offset : shapeOffset square2 (1 / 10, 1 / 10) = (1, 1) := by
  rw [shapeOffset, square2_bounds]
  norm_num

theorem square2_commit_maps (y x : Fin 20) :
    ((∃ yx : Fin 8 × Fin 8,
        mapsTo square2 (shapeOffset square2 (1 / 10, 1 / 10)) yx (y, x)) ↔
      (y.val = 1 ∨ y.val = 2) ∧ (x.val = 1 ∨ x.val = 2)) := by
  constructor
  · rintro ⟨⟨cy, cx⟩, hf, hy, hx⟩
    have hb : cy.val < 2 ∧ cx.val < 2 := by simpa [square2] using hf
    rw [boardY_of_int_offset _ 1 _ (by rw [square2_commit_offset]; norm_num)] at hy
    rw [boardX_of_int_offset _ 1 _ (by rw [square2_commit_offset]; norm_num)] at hx
    have hy2 : (cy.val : ℤ) + 1 = (y.val : ℤ) := hy
    have hx2 : (cx.val : ℤ) + 1 = (x.val : ℤ) := hx
    constructor <;> omega
  · rintro ⟨hy, hx⟩
    refine ⟨(⟨y.val - 1, by omega⟩, ⟨x.val - 1, by omega⟩), ?_, ?_, ?_⟩
    · show (decide (y.val - 1 < 2) && decide (x.val - 1 < 2)) = true
      simp only [Bool.and_eq_true, decide_eq_true_eq]
      constructor <;> omega
    · rw [boardY_of_int_offset _ 1 _ (by rw [square2_commit_offset]; norm_num)]
      show ((y.val - 1 : ℕ) : ℤ) + 1 = ((y.val : ℕ) : ℤ)
      omega
    · rw [boardX_of_int_offset _ 1 _ (by rw [square2_commit_offset]; norm_num)]
      show ((x.val - 1 : ℕ) : ℤ) + 1 = ((x.val : ℕ) : ℤ)
      omega

theorem square2_commit_grid (y x : Fin 20) :
    (Board.superimpose emptyBoard square2 (1 / 10, 1 / 10)).fields y x =
      if (y.val = 1 ∨ y.val = 2) ∧ (x.val = 1 ∨ x.val = 2)
      then SuperimpositionState.Fits else SuperimpositionState.Blank := by
  rw [show (Board.superimpose emptyBoard square2 (1 / 10, 1 / 10)).fields y x =
      if ∃ yx : Fin 8 × Fin 8,
        mapsTo square2 (shapeOffset square2 (1 / 10, 1 / 10)) yx (y, x)
      then boardVal emptyBoard (y, x) else SuperimpositionState.Blank from
    Board.superimpose_fields_apply emptyBoard square2 (1 / 10, 1 / 10) (y, x)]
  rw [if_congr (square2_commit_maps y x) rfl rfl]
  by_cases hc : (y.val = 1 ∨ y.val = 2) ∧ (x.val = 1 ∨ x.val = 2)
  · rw [if_pos hc, if_pos hc]
    rfl
  · rw [if_neg hc, if_neg hc]

theorem square2_commit_success :
    (Board.superimpose emptyBoard square2 (1 / 10, 1 / 10)).success = true := by
  rw [Board.superimpose_success_iff]
  rintro ⟨cy, cx⟩ hf
  have hb : cy.val < 2 ∧ cx.val < 2 := by simpa [square2] using hf
  refine ⟨(⟨cy.val + 1, by omega⟩, ⟨cx.val + 1, by omega⟩), ⟨hf, ?_, ?_⟩, rfl⟩
  · rw [boardY_of_int_offset _ 1 _ (by rw [square2_commit_offset]; norm_num)]
    show ((cy.val : ℕ) : ℤ) + 1 = ((cy.val + 1 : ℕ) : ℤ)
    omega
  · rw [boardX_of_int_offset _ 1 _ (by rw [square2_commit_offset]; norm_num)]
    show ((cx.val : ℕ) : ℤ) + 1 = ((cx.val + 1 : ℕ) : ℤ)
    omega

theorem c8Board_apply (y x : Fin 20) :
    c8Board y x =
      if (y.val = 1 ∨ y.val = 2) ∧ (x.val = 1 ∨ x.val = 2)
      then some TileColor.Blue else none := by
  rw [c8Board, Board.commit_apply, square2_commit_grid y x]
  by_cases hc : (y.val = 1 ∨ y.val = 2) ∧ (x.val = 1 ∨ x.val = 2)
  · rw [if_pos hc, if_pos rfl, if_pos hc]
  · rw [if_neg hc, if_neg (by decide), if_neg hc]
    rfl

theorem c8_second_grid (y x : Fin 20) (hy : y.val = 1 ∨ y.val = 2)
    (hx : x.val = 1 ∨ x.val = 2) :
    (Board.superimpose c8Board square2 (1 / 10, 1 / 10)).fields y x =
      SuperimpositionState.Intersects := by
  rw [show (Board.superimpose c8Board square2 (1 / 10, 1 / 10)).fields y x =
      if ∃ yx : Fin 8 × Fin 8,
        mapsTo square2 (shapeOffset square2 (1 / 10, 1 / 10)) yx (y, x)
      then boardVal c8Board (y, x) else SuperimpositionState.Blank from
    Board.superimpose_fields_apply c8Board square2 (1 / 10, 1 / 10) (y, x)]
  rw [if_pos ((square2_commit_maps y x).mpr ⟨hy, hx⟩)]
  have hb := c8Board_apply y x
  rw [if_pos ⟨hy, hx⟩] at hb
  simp [boardVal, hb]

theorem c8_second_success :
    (Board.superimpose c8Board square2 (1 / 10, 1 / 10)).success = false := by
  cases hsucc : (Board.superimpose c8Board square2 (1 / 10, 1 / 10)).success
  · rfl
  · exfalso
    obtain ⟨p, ⟨-, hy, hx⟩, hnone⟩ :=
      (Board.superimpose_success_iff c8Board square2 (1 / 10, 1 / 10)).mp hsucc
        (0, 0) (by decide)
    have hy0 : boardY (shapeOffset square2 (1 / 10, 1 / 10)) 0 = (p.1.val : ℤ) := hy
    have hx0 : boardX (shapeOffset square2 (1 / 10, 1 / 10)) 0 = (p.2.val : ℤ) := hx
    rw [boardY_of_int_offset _ 1 _ (by rw [square2_commit_offset]; norm_num)] at hy0
    rw [boardX_of_int_offset _ 1 _ (by rw [square2_commit_offset]; norm_num)] at hx0
    have hy1 : ((0 : ℕ) : ℤ) + 1 = (p.1.val : ℤ) := hy0
    have hx1 : ((0 : ℕ) : ℤ) + 1 = (p.2.val : ℤ) := hx0
    have hb := c8Board_apply p.1 p.2
    rw [if_pos ⟨by omega, by omega⟩] at hb
    rw [hb] at hnone
    cases hnone

/-- Claim C8: committing the 2×2 solid square on an empty board at anchor
`(0.1, 0.1)` (the first superimposition succeeds) and then superimposing
the same shape at the same anchor yields `success = false` with all four
target cells `(1..2, 1..2)` marked `Intersects`. -/
theorem superimpose_recommit_example :
    (Board.superimpose emptyBoard square2 (1 / 10, 1 / 10)).success = true ∧
      (Board.superimpose c8Board square2 (1 / 10, 1 / 10)).success = false ∧
      (Board.superimpose c8Board square2 (1 / 10, 1 / 10)).fields 1 1 =
        SuperimpositionState.Intersects ∧
      (Board.superimpose c8Board square2 (1 / 10, 1 / 10)).fields 1 2 =
        SuperimpositionState.Intersects ∧
      (Board.superimpose c8Board square2 (1 / 10, 1 / 10)).fields 2 1 =
        SuperimpositionState.Intersects ∧
      (Board.superimpose c8Board square2 (1 / 10, 1 / 10)).fields 2 2 =
        SuperimpositionState.Intersects :=
  ⟨square2_commit_success, c8_second_success,
    c8_second_grid 1 1 (by decide) (by decide),
    c8_second_grid 1 2 (by decide) (by decide),
    c8_second_grid 2 1 (by decide) (by decide),
    c8_second_grid 2 2 (by decide) (by decide)⟩

/-! ### Claim C5: failure conditions of `from_pattern` -/

theorem fromPatternAux_none_iff (w : Nat) :
    ∀ (pat : List Char) (i : Nat) (f : Fin 8 → Fin 8 → Bool),
      (fromPatternAux w pat i f = none ↔
        ∃ k, ∃ hk : k < pat.length,
          (8 ≤ (i + k) % w ∨ 8 ≤ (i + k) / w) ∨
            (pat.get ⟨k, hk⟩ ≠ '#' ∧ pat.get ⟨k, hk⟩ ≠ '.')) := by
  intro pat
  induction pat with
  | nil =>
    intro i f
    simp [fromPatternAux]
  | cons c rest ih =>
    intro i f
    simp only [fromPatternAux]
    by_cases hb : i % w < 8 ∧ i / w < 8
    · rw [dif_pos hb]
      by_cases hc : c = '#'
      · rw [if_pos hc, ih]
        constructor
        · rintro ⟨k, hk, hbad⟩
          refine ⟨k + 1, Nat.succ_lt_succ hk, ?_⟩
          rw [show i + (k + 1) = i + 1 + k from by omega]
          simpa only [List.get_cons_succ] using hbad
        · rintro ⟨k, hk, hbad⟩
          cases k with
          | zero =>
            exfalso
            rw [Nat.add_zero] at hbad
            rcases hbad with hoob | ⟨hne, -⟩
            · omega
            · exact hne hc
          | succ k' =>
            refine ⟨k', Nat.lt_of_succ_lt_succ hk, ?_⟩
            rw [show i + 1 + k' = i + (k' + 1) from by omega]
            simpa only [List.get_cons_succ] using hbad
      · by_cases hc2 : c = '.'
        · rw [if_neg hc, if_pos hc2, ih]
          constructor
          · rintro ⟨k, hk, hbad⟩
            refine ⟨k + 1, Nat.succ_lt_succ hk, ?_⟩
            rw [show i + (k + 1) = i + 1 + k from by omega]
            simpa only [List.get_cons_succ] using hbad
          · rintro ⟨k, hk, hbad⟩
            cases k with
            | zero =>
              exfalso
              rw [Nat.add_zero] at hbad
              rcases hbad with hoob | ⟨-, hne⟩
              · omega
              · exact hne hc2
            | succ k' =>
              refine ⟨k', Nat.lt_of_succ_lt_succ hk, ?_⟩
              rw [show i + 1 + k' = i + (k' + 1) from by omega]
              simpa only [List.get_cons_succ] using hbad
        · rw [if_neg hc, if_neg hc2]
          constructor
          · intro _
            exact ⟨0, Nat.succ_pos _, Or.inr ⟨hc, hc2⟩⟩
          · intro _
            rfl
    · rw [dif_neg hb]
      constructor
      · intro _
        refine ⟨0, Nat.succ_pos _, Or.inl ?_⟩
        rw [Nat.add_zero]
        omega
      · intro _
        rfl

/-- Claim C5 (counterexample): the claim says `from_pattern` must fail
whenever the declared width exceeds 8, but `from_pattern(9, 0, "")`
succeeds — the bound is only checked per processed character, and an empty
pattern processes none. -/
theorem from_pattern_failure_counterexample :
    Shape.from_pattern 9 0 [] ≠ none ∧ 8 < 9 := by
  constructor
  · decide
  · decide

/-- Claim C5 (amended): `from_pattern(w, h, pat)` fails exactly when the
pattern length differs from `w * h`, or the pattern is nonempty and `w` or
`h` exceeds the fixed 8-cell bound, or some character is neither `#` nor
`.`; in particular an empty pattern with `w * h = 0` is accepted even for
out-of-bound declared dimensions. -/
theorem from_pattern_failure_iff (w h : Nat) (pat : List Char) :
    (Shape.from_pattern w h pat = none ↔
      pat.length ≠ w * h ∨ (pat ≠ [] ∧ (8 < w ∨ 8 < h)) ∨
        ∃ c ∈ pat, c ≠ '#' ∧ c ≠ '.') := by
  rw [Shape.from_pattern]
  by_cases hlen : pat.length ≠ w * h
  · rw [if_pos hlen]
    simp [hlen]
  · rw [if_neg hlen]
    push_neg at hlen
    rw [Option.map_eq_none', fromPatternAux_none_iff]
    constructor
    · rintro ⟨k, hk, hbad | hbad⟩
      · refine Or.inr (Or.inl ⟨?_, ?_⟩)
        · intro hnil
          rw [hnil] at hk
          cases hk
        · have hk' : k < w * h := hlen ▸ hk
          have hw0 : 0 < w := by
            rcases Nat.eq_zero_or_pos w with rfl | hw
            · rw [Nat.zero_mul] at hk'
              cases hk'
            · exact hw
          rw [Nat.zero_add] at hbad
          rcases hbad with h8 | h8
          · left
            have := Nat.mod_lt k hw0
            omega
          · right
            have := (Nat.div_lt_iff_lt_mul hw0).mpr (by rw [Nat.mul_comm]; exact hk')
            omega
      · exact Or.inr (Or.inr ⟨pat.get ⟨k, hk⟩, List.get_mem pat k hk, hbad⟩)
    · rintro (hl | ⟨hne, hwh⟩ | ⟨c, hc, hbad⟩)
      · exact absurd hlen hl
      · have hpos : 0 < pat.length := List.length_pos.mpr hne
        have hwpos : 0 < w := by
          rcases Nat.eq_zero_or_pos w with rfl | hw
          · rw [Nat.zero_mul] at hlen
            omega
          · exact hw
        have hhpos : 0 < h := by
          rcases Nat.eq_zero_or_pos h with rfl | hh
          · rw [Nat.mul_zero] at hlen
            omega
          · exact hh
        rcases hwh with hw | hh
        · refine ⟨8, ?_, Or.inl (Or.inl ?_)⟩
          · rw [hlen]
            calc 8 < w := hw
              _ ≤ w * h := Nat.le_mul_of_pos_right w hhpos
          · rw [Nat.zero_add, Nat.mod_eq_of_lt hw]
        · refine ⟨8 * w, ?_, Or.inl (Or.inr ?_)⟩
          · rw [hlen]
            calc 8 * w < h * w := by
                  exact Nat.mul_lt_mul_of_lt_of_le hh (Nat.le_refl w) hwpos
              _ = w * h := Nat.mul_comm h w
          · have h8w : 8 * w / w = 8 := by
              rw [Nat.mul_comm]
              exact Nat.mul_div_cancel_left _ hwpos
            rw [Nat.zero_add, h8w]
      · obtain ⟨⟨k, hk⟩, rfl⟩ := List.mem_iff_get.mp hc
        exact ⟨k, hk, Or.inr hbad⟩

/-! ### Claim C1: textual rendering of a parsed pattern -/

theorem pattern_pos_unique (w a b : Nat) (h1 : a / w = b / w) (h2 : a % w = b % w) :
    a = b := by
  have ha := Nat.div_add_mod a w
  have hb := Nat.div_add_mod b w
  rw [h1, h2] at ha
  exact ha.symm.trans hb

theorem fromPatternAux_some_valid (w : Nat) :
    ∀ (pat : List Char) (i : Nat) (f g : Fin 8 → Fin 8 → Bool),
      fromPatternAux w pat i f = some g → ∀ c ∈ pat, c = '#' ∨ c = '.' := by
  intro pat
  induction pat with
  | nil =>
    intro i f g _ c hc
    cases hc
  | cons a rest ih =>
    intro i f g hg c hc
    simp only [fromPatternAux] at hg
    by_cases hb : i % w < 8 ∧ i / w < 8
    · rw [dif_pos hb] at hg
      by_cases ha : a = '#'
      · rw [if_pos ha] at hg
        rcases List.mem_cons.mp hc with rfl | hmem
        · exact Or.inl ha
        · exact ih (i + 1) _ g hg c hmem
      · by_cases ha2 : a = '.'
        · rw [if_neg ha, if_pos ha2] at hg
          rcases List.mem_cons.mp hc with rfl | hmem
          · exact Or.inr ha2
          · exact ih (i + 1) _ g hg c hmem
        · rw [if_neg ha, if_neg ha2] at hg
          cases hg
    · rw [dif_neg hb] at hg
      cases hg

theorem fromPatternAux_some_cell (w : Nat) :
    ∀ (pat : List Char) (i : Nat) (f g : Fin 8 → Fin 8 → Bool),
      fromPatternAux w pat i f = some g →
      ∀ (y x : Fin 8),
        (g y x = true ↔
          ((∃ k, ∃ hk : k < pat.length,
              (i + k) / w = y.val ∧ (i + k) % w = x.val ∧ pat.get ⟨k, hk⟩ = '#') ∨
            (f y x = true ∧
              ¬∃ k, k < pat.length ∧ (i + k) / w = y.val ∧ (i + k) % w = x.val))) := by
  intro pat
  induction pat with
  | nil =>
    intro i f g hg y x
    cases hg
    simp
  | cons a rest ih =>
    intro i f g hg y x
    simp only [fromPatternAux] at hg
    by_cases hb : i % w < 8 ∧ i / w < 8
    · rw [dif_pos hb] at hg
      have key : ∀ (v : Bool),
          fromPatternAux w rest (i + 1) (writeCell f ⟨i / w, hb.2⟩ ⟨i % w, hb.1⟩ v) =
            some g →
          (a = '#' → v = true) → (a ≠ '#' → v = false) →
          (g y x = true ↔
            ((∃ k, ∃ hk : k < (a :: rest).length,
                (i + k) / w = y.val ∧ (i + k) % w = x.val ∧
                  (a :: rest).get ⟨k, hk⟩ = '#') ∨
              (f y x = true ∧
                ¬∃ k, k < (a :: rest).length ∧ (i + k) / w = y.val ∧
                  (i + k) % w = x.val))) := by
        intro v hgv hv1 hv2
        rw [ih (i + 1) _ g hgv y x]
        by_cases hhead : i / w = y.val ∧ i % w = x.val
        · have hrest : ¬∃ k, k < rest.length ∧ (i + 1 + k) / w = y.val ∧
              (i + 1 + k) % w = x.val := by
            rintro ⟨k, -, hdiv, hmod⟩
            have : i + 1 + k = i :=
              pattern_pos_unique w (i + 1 + k) i (hdiv.trans hhead.1.symm)
                (hmod.trans hhead.2.symm)
            omega
          have hwrite : writeCell f ⟨i / w, hb.2⟩ ⟨i % w, hb.1⟩ v y x = v := by
            rw [writeCell, if_pos ⟨Fin.ext hhead.1.symm, Fin.ext hhead.2.symm⟩]
          constructor
          · rintro (⟨k, hk, hdiv, hmod, hget⟩ | ⟨hval, -⟩)
            · exfalso
              refine hrest ⟨k, hk, hdiv, hmod⟩
            · rw [hwrite] at hval
              by_cases ha : a = '#'
              · exact Or.inl ⟨0, Nat.succ_pos _,
                  by rw [Nat.add_zero]; exact hhead.1,
                  by rw [Nat.add_zero]; exact hhead.2, ha⟩
              · rw [hv2 ha] at hval
                cases hval
          · rintro (⟨k, hk, hdiv, hmod, hget⟩ | ⟨-, hnone⟩)
            · cases k with
              | zero =>
                rw [Nat.add_zero] at hdiv hmod
                have ha : a = '#' := hget
                refine Or.inr ⟨?_, hrest⟩
                rw [hwrite, hv1 ha]
              | succ k' =>
                exfalso
                rw [show i + (k' + 1) = i + 1 + k' from by omega] at hdiv hmod
                have : i + 1 + k' = i :=
                  pattern_pos_unique w (i + 1 + k') i (hdiv.trans hhead.1.symm)
                    (hmod.trans hhead.2.symm)
                omega
            · exfalso
              exact hnone ⟨0, Nat.succ_pos _,
                by rw [Nat.add_zero]; exact hhead.1,
                by rw [Nat.add_zero]; exact hhead.2⟩
        · have hwrite : writeCell f ⟨i / w, hb.2⟩ ⟨i % w, hb.1⟩ v y x = f y x := by
            rw [writeCell, if_neg]
            rintro ⟨h1, h2⟩
            exact hhead ⟨by rw [h1], by rw [h2]⟩
          rw [hwrite]
          constructor
          · rintro (⟨k, hk, hdiv, hmod, hget⟩ | ⟨hval, hnone⟩)
            · refine Or.inl ⟨k + 1, Nat.succ_lt_succ hk, ?_, ?_, ?_⟩
              · rw [show i + (k + 1) = i + 1 + k from by omega]
                exact hdiv
              · rw [show i + (k + 1) = i + 1 + k from by omega]
                exact hmod
              · simpa only [List.get_cons_succ] using hget
            · refine Or.inr ⟨hval, ?_⟩
              rintro ⟨k, hk, hdiv, hmod⟩
              cases k with
              | zero =>
                rw [Nat.add_zero] at hdiv hmod
                exact hhead ⟨hdiv, hmod⟩
              | succ k' =>
                rw [show i + (k' + 1) = i + 1 + k' from by omega] at hdiv hmod
                exact hnone ⟨k', Nat.lt_of_succ_lt_succ hk, hdiv, hmod⟩
          · rintro (⟨k, hk, hdiv, hmod, hget⟩ | ⟨hval, hnone⟩)
            · cases k with
              | zero =>
                exfalso
                rw [Nat.add_zero] at hdiv hmod
                exact hhead ⟨hdiv, hmod⟩
              | succ k' =>
                refine Or.inl ⟨k', Nat.lt_of_succ_lt_succ hk, ?_, ?_, ?_⟩
                · rw [show i + 1 + k' = i + (k' + 1) from by omega]
                  exact hdiv
                · rw [show i + 1 + k' = i + (k' + 1) from by omega]
                  exact hmod
                · simpa only [List.get_cons_succ] using hget
            · refine Or.inr ⟨hval, ?_⟩
              rintro ⟨k, hk, hdiv, hmod⟩
              refine hnone ⟨k + 1, Nat.succ_lt_succ hk, ?_, ?_⟩
              · rw [show i + (k + 1) = i + 1 + k from by omega]
                exact hdiv
              · rw [show i + (k + 1) = i + 1 + k from by omega]
                exact hmod
      by_cases ha : a = '#'
      · rw [if_pos ha] at hg
        exact key true hg (fun _ => rfl) (fun hna => absurd ha hna)
      · by_cases ha2 : a = '.'
        · rw [if_neg ha, if_pos ha2] at hg
          exact key false hg (fun hha => absurd hha ha) (fun _ => rfl)
        · rw [if_neg ha, if_neg ha2] at hg
          cases hg
    · rw [dif_neg hb] at hg
      cases hg

theorem Shape.from_pattern_cell (w h : Nat) (pat : List Char) (s : Shape)
    (hp : Shape.from_pattern w h pat = some s) :
    pat.length = w * h ∧
      ∀ (y x : Fin 8),
        (s.fields y x = true ↔
          ∃ k, ∃ hk : k < pat.length, k / w = y.val ∧ k % w = x.val ∧
            pat.get ⟨k, hk⟩ = '#') := by
  rw [Shape.from_pattern] at hp
  by_cases hlen : pat.length ≠ w * h
  · rw [if_pos hlen] at hp
    cases hp
  · rw [if_neg hlen] at hp
    push_neg at hlen
    refine ⟨hlen, ?_⟩
    obtain ⟨g, hg, hs⟩ := Option.map_eq_some'.mp hp
    intro y x
    have hchar := fromPatternAux_some_cell w pat 0 _ g hg y x
    have hfields : s.fields = g := by
      rw [← hs]
    rw [hfields, hchar]
    constructor
    · rintro (⟨k, hk, hdiv, hmod, hget⟩ | ⟨hfalse, -⟩)
      · refine ⟨k, hk, ?_, ?_, hget⟩
        · rw [show k = 0 + k from by omega]
          exact hdiv
        · rw [show k = 0 + k from by omega]
          exact hmod
      · cases hfalse
    · rintro ⟨k, hk, hdiv, hmod, hget⟩
      refine Or.inl ⟨k, hk, ?_, ?_, hget⟩
      · rw [show 0 + k = k from by omega]
        exact hdiv
      · rw [show 0 + k = k from by omega]
        exact hmod

theorem Shape.from_pattern_valid (w h : Nat) (pat : List Char) (s : Shape)
    (hp : Shape.from_pattern w h pat = some s) :
    ∀ c ∈ pat, c = '#' ∨ c = '.' := by
  rw [Shape.from_pattern] at hp
  by_cases hlen : pat.length ≠ w * h
  · rw [if_pos hlen] at hp
    cases hp
  · rw [if_neg hlen] at hp
    obtain ⟨g, hg, -⟩ := Option.map_eq_some'.mp hp
    exact fromPatternAux_some_valid w pat 0 _ g hg

/-- Claim C1 (counterexample): rendering the parsed 2×2 pattern `####`
yields `##\n##`, not the original flat string — the `Display`
implementation inserts a line break between rows while `from_pattern`
takes a string without breaks. -/
theorem display_roundtrip_counterexample :
    Shape.from_pattern 2 2 ['#', '#', '#', '#'] = some square2 ∧
      square2.bounds = (2, 2) ∧
      square2.display ≠ ['#', '#', '#', '#'] := by
  refine ⟨?_, by decide, by decide⟩
  have h2 : (Shape.from_pattern 2 2 ['#', '#', '#', '#']).get (by decide) = square2 := by
    decide
  rw [← h2, Option.some_get]

/-- Claim C1 (amended): for every pattern whose parse succeeds and whose
true-cell bounding box equals the declared `(w, h)`, the textual rendering
reproduces the input pattern row by row: it equals the input's `h` rows of
`w` characters joined by single line breaks (and hence equals the input
exactly only when `h ≤ 1`). -/
theorem display_roundtrip_with_breaks (w h : Nat) (pat : List Char) (s : Shape)
    (hp : Shape.from_pattern w h pat = some s) (hb : s.bounds = (w, h)) :
    s.display = rowsWithBreaks w h pat := by
  obtain ⟨hlen, hcell⟩ := Shape.from_pattern_cell w h pat s hp
  have hvalid := Shape.from_pattern_valid w h pat s hp
  have hle8 := s.bounds_le8
  rw [hb] at hle8
  have hw8 : w ≤ 8 := hle8.1
  have hh8 : h ≤ 8 := hle8.2
  rw [Shape.display, hb, rowsWithBreaks]
  show (List.range h).flatMap
      (fun i => ((List.range w).map fun j => if s.cell i j then '#' else '.') ++
        (if i < h - 1 then ['\n'] else [])) =
    (List.range h).flatMap
      (fun i => ((pat.drop (i * w)).take w) ++ (if i < h - 1 then ['\n'] else []))
  rw [List.flatMap_def, List.flatMap_def]
  congr 1
  refine List.map_congr_left fun i hi => ?_
  have hih : i < h := List.mem_range.mp hi
  have hmul : i * w + w ≤ w * h := by
    calc i * w + w = (i + 1) * w := by ring
      _ ≤ h * w := Nat.mul_le_mul_right w hih
      _ = w * h := Nat.mul_comm h w
  congr 1
  refine List.ext_getElem ?_ fun n h1 h2 => ?_
  · rw [List.length_map, List.length_range, List.length_take, List.length_drop, hlen]
    omega
  · have hnw : n < w := by
      rw [List.length_map, List.length_range] at h1
      exact h1
    rw [List.getElem_map, List.getElem_range, List.getElem_take, List.getElem_drop]
    have hkpos : i * w + n < pat.length := by
      rw [hlen]
      omega
    have hcell' := hcell ⟨i, by omega⟩ ⟨n, by omega⟩
    have hwpos : 0 < w := by omega
    have hdiv : (i * w + n) / w = i := by
      rw [Nat.add_comm, Nat.add_mul_div_right n i hwpos, Nat.div_eq_of_lt hnw,
        Nat.zero_add]
    have hmod : (i * w + n) % w = n := by
      rw [Nat.add_comm, Nat.add_mul_mod_self_right]
      exact Nat.mod_eq_of_lt hnw
    have hcellval : s.cell i n = s.fields ⟨i, by omega⟩ ⟨n, by omega⟩ := by
      rw [Shape.cell, dif_pos ⟨by omega, by omega⟩]
    by_cases hch : pat[i * w + n] = '#'
    · have htrue : s.fields ⟨i, by omega⟩ ⟨n, by omega⟩ = true := by
        rw [hcell']
        exact ⟨i * w + n, hkpos, hdiv, hmod, by rw [List.get_eq_getElem]; exact hch⟩
      rw [hcellval, htrue, if_pos rfl]
      exact hch.symm
    · have hfalse : s.fields ⟨i, by omega⟩ ⟨n, by omega⟩ = false := by
        rcases Bool.eq_false_or_eq_true (s.fields ⟨i, by omega⟩ ⟨n, by omega⟩)
          with ht | hf
        · exfalso
          obtain ⟨k, hk, hdiv', hmod', hget⟩ := hcell'.mp ht
          have hkk : k = i * w + n :=
            pattern_pos_unique w k (i * w + n) (hdiv'.trans hdiv.symm)
              (hmod'.trans hmod.symm)
          subst hkk
          rw [List.get_eq_getElem] at hget
          exact hch hget
        · exact hf
      have hdot : pat[i * w + n] = '.' := by
        rcases hvalid (pat[i * w + n]) (List.getElem_mem hkpos) with hsh | hdot
        · exact absurd hsh hch
        · exact hdot
      rw [hcellval, hfalse, if_neg (by decide)]
      exact hdot.symm

/-- Claim C1 (witness): the pattern `##.#` with declared box 2×2 parses to
the L-tromino and renders as its rows joined by a line break. -/
theorem display_roundtrip_witness :
    Shape.from_pattern 2 2 ['#', '#', '.', '#'] = some ltromino ∧
      ltromino.bounds = (2, 2) ∧
      ltromino.display = rowsWithBreaks 2 2 ['#', '#', '.', '#'] := by
  have h2 : (Shape.from_pattern 2 2 ['#', '#', '.', '#']).get (by decide) = ltromino := by
    decide
  have hp : Shape.from_pattern 2 2 ['#', '#', '.', '#'] = some ltromino := by
    rw [← h2, Option.some_get]
  exact ⟨hp, by decide,
    display_roundtrip_with_breaks 2 2 ['#', '#', '.', '#'] ltromino hp (by decide)⟩

/-- Membership in one deduplicating-append stage of `equivalents`. -/
theorem mem_if_snoc (l : List Shape) (y x : Shape) :
    (x ∈ if y ∈ l then l else l ++ [y]) ↔ x ∈ l ∨ x = y := by
  by_cases h : y ∈ l
  · rw [if_pos h]
    constructor
    · exact Or.inl
    · rintro (hx | rfl)
      · exact hx
      · exact h
  · rw [if_neg h, List.mem_append, List.mem_singleton]

/-- One deduplicating-append stage of `equivalents` preserves `Nodup`. -/
theorem nodup_if_snoc (l : List Shape) (y : Shape) (h : l.Nodup) :
    (if y ∈ l then l else l ++ [y]).Nodup := by
  by_cases hm : y ∈ l
  · rw [if_pos hm]
    exact h
  · rw [if_neg hm]
    refine List.Nodup.append h (List.nodup_singleton y) ?_
    intro a ha hb
    rw [List.mem_singleton] at hb
    subst hb
    exact hm ha

/-- One deduplicating-append stage of `equivalents` stays a sublist of the
full construction order. -/
theorem sublist_if_snoc (l L : List Shape) (y : Shape) (h : l.Sublist L) :
    (if y ∈ l then l else l ++ [y]).Sublist (L ++ [y]) := by
  by_cases hm : y ∈ l
  · rw [if_pos hm]
    exact h.trans (L.sublist_append_left [y])
  · rw [if_neg hm]
    exact h.append (List.Sublist.refl [y])

set_option maxHeartbeats 1600000 in
/-- Claim C6: `equivalents` returns between 1 and 4 shapes without
duplicates, in construction order base, 90°, 180°, 270° (a sublist of that
sequence), each rotation being present exactly when it is one of the four
listed rotations — i.e. each stage appends its rotation only if it is not
already anywhere in the accumulated list; the fully symmetric 2×2 square
yields exactly 1 element and the L-tromino yields exactly 4. -/
theorem equivalents_spec :
    (∀ s : Shape,
      1 ≤ s.equivalents.length ∧ s.equivalents.length ≤ 4 ∧
        s.equivalents.Nodup ∧
        s.equivalents.Sublist [s, s.rotate_90, s.rotate_90.rotate_90,
          s.rotate_90.rotate_90.rotate_90] ∧
        (∀ t, t ∈ s.equivalents ↔
          (t = s ∨ t = s.rotate_90 ∨ t = s.rotate_90.rotate_90 ∨
            t = s.rotate_90.rotate_90.rotate_90))) ∧
      square2.equivalents.length = 1 ∧ ltromino.equivalents.length = 4 := by
  refine ⟨fun s => ?_, ?_, ?_⟩
  · have hsub : s.equivalents.Sublist [s, s.rotate_90, s.rotate_90.rotate_90,
        s.rotate_90.rotate_90.rotate_90] := by
      have h0 : [s].Sublist [s] := List.Sublist.refl [s]
      have h1 := sublist_if_snoc [s] [s] s.rotate_90 h0
      have h2 := sublist_if_snoc _ _ s.rotate_90.rotate_90 h1
      have h3 := sublist_if_snoc _ _ s.rotate_90.rotate_90.rotate_90 h2
      simpa [Shape.equivalents] using h3
    have hmem : ∀ t, t ∈ s.equivalents ↔
        (t = s ∨ t = s.rotate_90 ∨ t = s.rotate_90.rotate_90 ∨
          t = s.rotate_90.rotate_90.rotate_90) := by
      intro t
      simp only [Shape.equivalents]
      rw [mem_if_snoc, mem_if_snoc, mem_if_snoc, List.mem_singleton, or_assoc,
        or_assoc]
    have hnodup : s.equivalents.Nodup := by
      simp only [Shape.equivalents]
      exact nodup_if_snoc _ _ (nodup_if_snoc _ _ (nodup_if_snoc _ _
        (List.nodup_singleton s)))
    have hlen4 : s.equivalents.length ≤ 4 := by simpa using hsub.length_le
    have hpos : 1 ≤ s.equivalents.length :=
      List.length_pos_of_mem ((hmem s).mpr (Or.inl rfl))
    exact ⟨hpos, hlen4, hnodup, hsub, hmem⟩
  · have hr : square2.rotate_90 = square2 := by decide
    have m1 : square2.rotate_90 ∈ [square2] := by
      rw [hr]
      exact List.mem_singleton.mpr rfl
    have m2 : square2.rotate_90.rotate_90 ∈ [square2] := by
      rw [hr, hr]
      exact List.mem_singleton.mpr rfl
    have m3 : square2.rotate_90.rotate_90.rotate_90 ∈ [square2] := by
      rw [hr, hr, hr]
      exact List.mem_singleton.mpr rfl
    simp only [Shape.equivalents]
    rw [if_pos m1, if_pos m2, if_pos m3]
    rfl
  · have e1 : ltromino.rotate_90 = ltromino90 := by decide
    have e2 : ltromino90.rotate_90 = ltromino180 := by decide
    have e3 : ltromino180.rotate_90 = ltromino270 := by decide
    have n1 : ¬(ltromino90 ∈ [ltromino]) := by decide
    have n2 : ¬(ltromino180 ∈ [ltromino] ++ [ltromino90]) := by decide
    have n3 : ¬(ltromino270 ∈ ([ltromino] ++ [ltromino90]) ++ [ltromino180]) := by
      decide
    simp only [Shape.equivalents, e1, e2, e3]
    rw [if_neg n1, if_neg n2, if_neg n3]
    rfl
